import Mathlib

/-!
# Verification of the Echo ingestion core

A shallow embedding, in Lean, of the core components of the Echo
conversational-memory service:

* `app/security/webhook.py` — HMAC webhook-signature verification,
* `app/text/chunker.py` — tokenizer-window text chunking,
* `app/memory/index.py` — the `HotIndexManager` label/record bookkeeping,
* `app/memory/pinecone_store.py` — the hash-idempotent durable upsert,
* `app/callbacks.py` — the `CallbackProcessor.process` ingestion pipeline.

Python strings are modelled as `List Char` (`Str`).  External capabilities
(the HMAC/SHA digests, the tiktoken tokenizer, Unicode normalization, the
JSON decoder, the embedding service, the Pinecone client, the hnswlib ANN
structure and the wall clock) are parameters of the model; everything the
repository itself computes is translated definitionally.
-/

/-- Python `str` modelled as a list of characters. -/
abbrev Str := List Char

/-- Coerce a Lean string literal into the `Str` model. -/
def str (s : String) : Str := s.data

/-- `str.strip()`: drop whitespace from both ends. -/
def pyStrip (s : Str) : Str :=
  ((s.dropWhile Char.isWhitespace).reverse.dropWhile Char.isWhitespace).reverse

/-- `str.split(sep)` for a one-character separator: split on every occurrence. -/
def pySplit (sep : Char) : Str → List Str
  | [] => [[]]
  | c :: t =>
    match pySplit sep t with
    | [] => [[]]
    | h :: r => if c = sep then [] :: h :: r else (c :: h) :: r

/-- `str.partition(sep)` for a one-character separator, keeping only the
pieces before and after the first occurrence; when the separator is absent
the second component is empty, matching `key, _, value = part.partition("=")`. -/
def pyPartition (sep : Char) : Str → Str × Str
  | [] => ([], [])
  | c :: t =>
    if c = sep then ([], t)
    else
      let p := pyPartition sep t
      (c :: p.1, p.2)

/-- Characters accepted by `int(...)` after the optional sign. -/
def isDigitChar (c : Char) : Bool := c.isDigit

/-- `int(str)`: surrounding whitespace, an optional sign, then decimal
digits; anything else raises `ValueError` (modelled as `none`).
(Python's underscore digit grouping is not modelled.) -/
def pyInt (s : Str) : Option Int :=
  let t := pyStrip s
  match t with
  | [] => none
  | c :: rest =>
    let (neg, digits) :=
      if c = '-' then (true, rest)
      else if c = '+' then (false, rest)
      else (false, c :: rest)
    if digits = [] then none
    else if digits.all isDigitChar then
      let n : Nat := digits.foldl (fun acc d => acc * 10 + (d.toNat - '0'.toNat)) 0
      some (if neg then -(n : Int) else (n : Int))
    else none

/-- `str(n)` for a Python integer. -/
def intStr (n : Int) : Str := (toString n).data

/-!
## `app/security/webhook.py`

The HMAC primitive (`hmac.new(secret, message, sha256).hexdigest()`) is an
external capability, passed in as `mac : Str → Str → Str` (secret, message ↦
hex digest).  The wall clock `int(time.time())` is the parameter `now`.
-/

/-- Signature-verification failures (`WebhookVerificationError` reasons). -/
inductive VerifyErr where
  | missingSecret
  | missingSignature
  | timestampOutsideTolerance
  | invalidSignature
  deriving DecidableEq, Repr

/-- One `part` of the header loop body in `_parse_signature_header`:
strip, partition on the first `=`, lowercase the key, then update the
`(timestamp, signature_value)` accumulator. -/
def parsePart (acc : Int × Str) (part : Str) : Int × Str :=
  let p := pyPartition '=' (pyStrip part)
  let key := p.1.map Char.toLower
  let value := p.2
  if key = str "t" ∨ key = str "timestamp" then
    match pyInt value with
    | some n => (n, acc.2)
    | none => acc
  else if (key = str "v1" ∨ key = str "signature" ∨ key = str "sha256") ∧ acc.2 = [] then
    (acc.1, value)
  else acc

/-- `_parse_signature_header`: returns `(timestamp, signature_value)`,
with `0` standing for an absent/unparseable timestamp. -/
def parseSignatureHeader (signatureHeader : Str) : Int × Str :=
  let s := pyStrip signatureHeader
  if s = [] then (0, [])
  else if '=' ∉ s then (0, s)
  else (pySplit ',' s).foldl parsePart (0, [])

/-- `verify_webhook_signature(signature_header, body, secret, tolerance)`,
with the clock `now` and the HMAC-SHA256 capability `mac` made explicit.
Raising is modelled as `Except VerifyErr`. -/
def verifyWebhookSignature (mac : Str → Str → Str) (now : Int)
    (signatureHeader body secret : Str) (tolerance : Int) :
    Except VerifyErr Unit :=
  if secret = [] then .error .missingSecret
  else
    let parsed := parseSignatureHeader signatureHeader
    let timestamp := parsed.1
    let providedSignature := parsed.2
    if providedSignature = [] then .error .missingSignature
    else if timestamp ≠ 0 then
      if ((now - timestamp).natAbs : Int) > tolerance then
        .error .timestampOutsideTolerance
      else
        let message := intStr timestamp ++ '.' :: body
        if mac secret message = providedSignature then .ok ()
        else .error .invalidSignature
    else
      if mac secret body = providedSignature then .ok ()
      else .error .invalidSignature

/-- The §4.1 header shape `t=<unix-ts>,v1=<hex-hmac>`. -/
def sigHeaderV1 (tsStr d : Str) : Str := str "t=" ++ tsStr ++ str ",v1=" ++ d

/-! ### Parsing lemmas for well-formed headers -/

lemma dropWhile_all_false {p : Char → Bool} {s : Str}
    (h : ∀ c ∈ s, p c = false) : s.dropWhile p = s := by
  cases s with
  | nil => rfl
  | cons a t => simp [List.dropWhile_cons, h a (List.mem_cons_self a t)]

lemma pyStrip_eq_self {s : Str} (h : ∀ c ∈ s, c.isWhitespace = false) :
    pyStrip s = s := by
  unfold pyStrip
  rw [dropWhile_all_false h, dropWhile_all_false, List.reverse_reverse]
  intro c hc
  exact h c (by simpa using hc)

lemma pySplit_no_sep {sep : Char} {s : Str} (h : sep ∉ s) :
    pySplit sep s = [s] := by
  induction s with
  | nil => rfl
  | cons c t ih =>
    have hct : sep ∉ t := fun hm => h (List.mem_cons_of_mem _ hm)
    have hc : c ≠ sep := fun he => h (he ▸ List.mem_cons_self _ _)
    simp [pySplit, ih hct, hc]

lemma pySplit_ne_nil (sep : Char) (s : Str) : pySplit sep s ≠ [] := by
  induction s with
  | nil => simp [pySplit]
  | cons c t ih =>
    simp only [pySplit]
    cases hx : pySplit sep t with
    | nil => exact absurd hx ih
    | cons h r => by_cases hcs : c = sep <;> simp [hcs]

lemma pySplit_append {sep : Char} {a b : Str} (h : sep ∉ a) :
    pySplit sep (a ++ sep :: b) = a :: pySplit sep b := by
  induction a with
  | nil =>
    simp only [List.nil_append, pySplit]
    cases hb : pySplit sep b with
    | nil => exact absurd hb (pySplit_ne_nil sep b)
    | cons h' r => simp
  | cons c t ih =>
    have hct : sep ∉ t := fun hm => h (List.mem_cons_of_mem _ hm)
    have hc : c ≠ sep := fun he => h (he ▸ List.mem_cons_self _ _)
    simp only [List.cons_append, pySplit, List.append_eq]
    rw [ih hct]
    simp [hc]

lemma pyPartition_no_sep {sep : Char} {s : Str} (h : sep ∉ s) :
    pyPartition sep s = (s, []) := by
  induction s with
  | nil => rfl
  | cons c t ih =>
    have hct : sep ∉ t := fun hm => h (List.mem_cons_of_mem _ hm)
    have hc : c ≠ sep := fun he => h (he ▸ List.mem_cons_self _ _)
    simp [pyPartition, hc, ih hct]

lemma pyPartition_append {sep : Char} {a b : Str} (h : sep ∉ a) :
    pyPartition sep (a ++ sep :: b) = (a, b) := by
  induction a with
  | nil => simp [pyPartition]
  | cons c t ih =>
    have hct : sep ∉ t := fun hm => h (List.mem_cons_of_mem _ hm)
    have hc : c ≠ sep := fun he => h (he ▸ List.mem_cons_self _ _)
    simp [pyPartition, hc, ih hct]

/-- A cleanliness condition for textual material inside headers: no comma,
no `=`, no whitespace. -/
def CleanStr (s : Str) : Prop :=
  ∀ c ∈ s, c ≠ ',' ∧ c ≠ '=' ∧ c.isWhitespace = false

instance : DecidablePred CleanStr := fun s =>
  inferInstanceAs (Decidable (∀ c ∈ s, c ≠ ',' ∧ c ≠ '=' ∧ c.isWhitespace = false))

/-- Digest material may contain `=` (only the first `=` of a part separates
key from value) but no comma or whitespace. -/
def CleanDigest (s : Str) : Prop :=
  ∀ c ∈ s, c ≠ ',' ∧ c.isWhitespace = false

instance : DecidablePred CleanDigest := fun s =>
  inferInstanceAs (Decidable (∀ c ∈ s, c ≠ ',' ∧ c.isWhitespace = false))

lemma sigHeaderV1_shape (tsStr d : Str) :
    sigHeaderV1 tsStr d = 't' :: '=' :: (tsStr ++ ',' :: ('v' :: '1' :: '=' :: d)) := by
  show ((['t', '='] ++ tsStr) ++ [',', 'v', '1', '=']) ++ d = _
  simp [List.append_assoc]

lemma parsePart_t (tsStr : Str) (acc : Int × Str)
    (hClean : CleanStr tsStr) :
    parsePart acc ('t' :: '=' :: tsStr) =
      (match pyInt tsStr with | some n => (n, acc.2) | none => acc) := by
  have hstrip : pyStrip ('t' :: '=' :: tsStr) = 't' :: '=' :: tsStr := by
    apply pyStrip_eq_self
    intro c hc
    simp only [List.mem_cons] at hc
    rcases hc with rfl | rfl | hm
    · decide
    · decide
    · exact (hClean c hm).2.2
  have hpart : pyPartition '=' ('t' :: '=' :: tsStr) = (['t'], tsStr) := by
    simp [pyPartition]
  have hcond : (['t'].map Char.toLower = str "t" ∨ ['t'].map Char.toLower = str "timestamp") := by
    decide
  simp only [parsePart, hstrip, hpart]
  simp only [hcond, if_true]

lemma parsePart_v1 (d : Str) (k : Int) (hd : CleanDigest d) :
    parsePart (k, []) ('v' :: '1' :: '=' :: d) = (k, d) := by
  have hstrip : pyStrip ('v' :: '1' :: '=' :: d) = 'v' :: '1' :: '=' :: d := by
    apply pyStrip_eq_self
    intro c hc
    simp only [List.mem_cons] at hc
    rcases hc with rfl | rfl | rfl | hm
    · decide
    · decide
    · decide
    · exact (hd c hm).2
  have hpart : pyPartition '=' ('v' :: '1' :: '=' :: d) = (['v', '1'], d) := by
    simp [pyPartition]
  have hcond1 : ¬ (['v', '1'].map Char.toLower = str "t" ∨
      ['v', '1'].map Char.toLower = str "timestamp") := by decide
  have hcond2 : (['v', '1'].map Char.toLower = str "v1" ∨
      ['v', '1'].map Char.toLower = str "signature" ∨
      ['v', '1'].map Char.toLower = str "sha256") := by decide
  simp only [parsePart, hstrip, hpart]
  simp only [hcond1, if_false, hcond2, true_and, and_true, if_true]

/-- Parsing the §4.1 header recovers the timestamp as `int(<ts-text>)`
(`0` when unparseable) together with the digest text. -/
lemma parseSignatureHeader_built (tsStr d : Str)
    (htsClean : CleanStr tsStr) (hd : CleanDigest d) :
    parseSignatureHeader (sigHeaderV1 tsStr d) =
      ((match pyInt tsStr with | some n => n | none => 0), d) := by
  rw [sigHeaderV1_shape]
  have hws : ∀ c ∈ 't' :: '=' :: (tsStr ++ ',' :: ('v' :: '1' :: '=' :: d)),
      c.isWhitespace = false := by
    intro c hc
    simp only [List.mem_cons, List.mem_append] at hc
    rcases hc with rfl | rfl | hm | rfl | rfl | rfl | rfl | hm
    · decide
    · decide
    · exact (htsClean c hm).2.2
    · decide
    · decide
    · decide
    · decide
    · exact (hd c hm).2
  have hsplit : pySplit ',' ('t' :: '=' :: (tsStr ++ ',' :: ('v' :: '1' :: '=' :: d))) =
      [('t' :: '=' :: tsStr), ('v' :: '1' :: '=' :: d)] := by
    have hna : ',' ∉ 't' :: '=' :: tsStr := by
      intro hmem
      simp only [List.mem_cons] at hmem
      rcases hmem with h | h | h
      · exact absurd h (by decide)
      · exact absurd h (by decide)
      · exact (htsClean ',' h).1 rfl
    have hnb : ',' ∉ 'v' :: '1' :: '=' :: d := by
      intro hmem
      simp only [List.mem_cons] at hmem
      rcases hmem with h | h | h | h
      · exact absurd h (by decide)
      · exact absurd h (by decide)
      · exact absurd h (by decide)
      · exact (hd ',' h).1 rfl
    have hstep := @pySplit_append ',' ('t' :: '=' :: tsStr)
      ('v' :: '1' :: '=' :: d) hna
    rw [show ('t' :: '=' :: tsStr) ++ ',' :: ('v' :: '1' :: '=' :: d) =
      't' :: '=' :: (tsStr ++ ',' :: ('v' :: '1' :: '=' :: d)) by simp] at hstep
    rw [hstep, pySplit_no_sep hnb]
  unfold parseSignatureHeader
  rw [pyStrip_eq_self hws]
  have hne : ('t' :: '=' :: (tsStr ++ ',' :: ('v' :: '1' :: '=' :: d)) : Str) ≠ [] := by simp
  have hmem : '=' ∈ 't' :: '=' :: (tsStr ++ ',' :: ('v' :: '1' :: '=' :: d)) := by simp
  simp only [hne, if_false, hmem, not_true_eq_false, if_neg, hsplit]
  rw [List.foldl_cons, List.foldl_cons, List.foldl_nil, parsePart_t _ _ htsClean]
  cases hti : pyInt tsStr with
  | some n => simp [parsePart_v1 d n hd]
  | none => simp [parsePart_v1 d 0 hd]

/-- Parsing a bare `v1=<digest>` header: timestamp `0`, digest recovered. -/
lemma parseSignatureHeader_v1only (d : Str) (hd : CleanDigest d) :
    parseSignatureHeader (str "v1=" ++ d) = (0, d) := by
  show parseSignatureHeader ('v' :: '1' :: '=' :: d) = (0, d)
  have hws : ∀ c ∈ ('v' :: '1' :: '=' :: d : Str), c.isWhitespace = false := by
    intro c hc
    simp only [List.mem_cons] at hc
    rcases hc with rfl | rfl | rfl | hm
    · decide
    · decide
    · decide
    · exact (hd c hm).2
  have hnb : ',' ∉ ('v' :: '1' :: '=' :: d : Str) := by
    intro hmem
    simp only [List.mem_cons] at hmem
    rcases hmem with h | h | h | h
    · exact absurd h (by decide)
    · exact absurd h (by decide)
    · exact absurd h (by decide)
    · exact (hd ',' h).1 rfl
  unfold parseSignatureHeader
  rw [pyStrip_eq_self hws]
  have hne : ('v' :: '1' :: '=' :: d : Str) ≠ [] := by simp
  have hmem : '=' ∈ ('v' :: '1' :: '=' :: d : Str) := by simp
  simp only [hne, if_false, hmem, not_true_eq_false, if_neg, pySplit_no_sep hnb]
  rw [List.foldl_cons, List.foldl_nil, parsePart_v1 d 0 hd]

/-- Parsing a bare digest (no `=` anywhere): timestamp `0`, whole header as
the signature value. -/
lemma parseSignatureHeader_bare (d : Str) (hne : d ≠ [])
    (hd : CleanDigest d) (hnoeq : '=' ∉ d) :
    parseSignatureHeader d = (0, d) := by
  unfold parseSignatureHeader
  rw [pyStrip_eq_self (fun c hc => (hd c hc).2)]
  simp [hne, hnoeq]

/-- **C4**: for every body and non-empty secret, a §4.1-built header
(`v1 = HMAC-SHA256(secret, "<ts>." + body)` with an in-tolerance timestamp,
or a bare `HMAC-SHA256(secret, body)` with no timestamp) makes
`verify_webhook_signature` succeed; changing the body (when the digests
differ, i.e. absent an HMAC collision) or changing the signature makes
verification fail; and a header whose timestamp lies outside ±tolerance
of the current time fails even with the §4.1-correct digest.  The HMAC
primitive is abstract; hex-digest well-formedness (non-empty, no comma,
no whitespace) enters as hypotheses. -/
theorem C4_signature_correctness
    (mac : Str → Str → Str) (secret body : Str) (now tol ts : Int) (tsStr : Str)
    (hsecret : secret ≠ [])
    (htsv : pyInt tsStr = some ts)
    (htss : intStr ts = tsStr)
    (hts0 : ts ≠ 0)
    (htol : ((now - ts).natAbs : Int) ≤ tol)
    (htsClean : CleanStr tsStr)
    (hD1ne : mac secret (tsStr ++ '.' :: body) ≠ [])
    (hD1clean : CleanDigest (mac secret (tsStr ++ '.' :: body)))
    (hD2ne : mac secret body ≠ [])
    (hD2clean : CleanDigest (mac secret body))
    (hD2noeq : '=' ∉ mac secret body) :
    (verifyWebhookSignature mac now
        (sigHeaderV1 tsStr (mac secret (tsStr ++ '.' :: body))) body secret tol = .ok ())
    ∧ (verifyWebhookSignature mac now (mac secret body) body secret tol = .ok ())
    ∧ (∀ body' : Str, body' ≠ body →
        mac secret (tsStr ++ '.' :: body') ≠ mac secret (tsStr ++ '.' :: body) →
        verifyWebhookSignature mac now
          (sigHeaderV1 tsStr (mac secret (tsStr ++ '.' :: body))) body' secret tol
          = .error .invalidSignature)
    ∧ (∀ d' : Str, d' ≠ mac secret (tsStr ++ '.' :: body) → d' ≠ [] → CleanDigest d' →
        verifyWebhookSignature mac now (sigHeaderV1 tsStr d') body secret tol
          = .error .invalidSignature)
    ∧ (∀ (ts' : Int) (tsStr' : Str), pyInt tsStr' = some ts' → intStr ts' = tsStr' →
        CleanStr tsStr' →
        ((now - ts').natAbs : Int) > tol →
        mac secret (tsStr' ++ '.' :: body) ≠ [] →
        CleanDigest (mac secret (tsStr' ++ '.' :: body)) →
        (ts' = 0 → mac secret (str "0." ++ body) ≠ mac secret body) →
        verifyWebhookSignature mac now
          (sigHeaderV1 tsStr' (mac secret (tsStr' ++ '.' :: body))) body secret tol
          ≠ .ok ()) := by
  have hparse1 : parseSignatureHeader (sigHeaderV1 tsStr (mac secret (tsStr ++ '.' :: body)))
      = (ts, mac secret (tsStr ++ '.' :: body)) := by
    rw [parseSignatureHeader_built tsStr _ htsClean hD1clean, htsv]
  have habs : ¬ (tol < |now - ts|) := by
    rw [Int.abs_eq_natAbs]
    exact not_lt.mpr htol
  refine ⟨?_, ?_, ?_, ?_, ?_⟩
  · simp only [verifyWebhookSignature, hparse1]
    simp [hsecret, hD1ne, hts0, habs, htss]
  · simp only [verifyWebhookSignature, parseSignatureHeader_bare _ hD2ne hD2clean hD2noeq]
    simp [hsecret, hD2ne]
  · intro body' _ hne
    simp only [verifyWebhookSignature, hparse1]
    simp [hsecret, hD1ne, hts0, habs, htss, hne]
  · intro d' hne hdne hdclean
    have hparse' : parseSignatureHeader (sigHeaderV1 tsStr d') = (ts, d') := by
      rw [parseSignatureHeader_built tsStr _ htsClean hdclean, htsv]
    have hcomp : ¬ (mac secret (tsStr ++ '.' :: body) = d') := fun h => hne h.symm
    simp only [verifyWebhookSignature, hparse']
    simp [hsecret, hdne, hts0, habs, htss, hcomp]
  · intro ts' tsStr' htsv' htss' htsClean' houtside hDne' hDclean' hzero
    have hparse' : parseSignatureHeader
        (sigHeaderV1 tsStr' (mac secret (tsStr' ++ '.' :: body)))
        = (ts', mac secret (tsStr' ++ '.' :: body)) := by
      rw [parseSignatureHeader_built tsStr' _ htsClean' hDclean', htsv']
    by_cases hz : ts' = 0
    · subst hz
      have htss0 : tsStr' = '0' :: [] := by
        rw [← htss']; rfl
      have hmsg : (tsStr' ++ '.' :: body) = str "0." ++ body := by
        rw [htss0]; rfl
      have hcomp : ¬ (mac secret body = mac secret (tsStr' ++ '.' :: body)) := by
        rw [hmsg]
        exact fun h => (hzero rfl) h.symm
      simp only [verifyWebhookSignature, hparse']
      simp [hsecret, hDne', hcomp]
    · have habs' : tol < |now - ts'| := by
        rw [Int.abs_eq_natAbs]
        exact houtside
      simp only [verifyWebhookSignature, hparse']
      simp [hsecret, hDne', hz, habs']

/-- A concrete, collision-free stand-in for the HMAC capability used by
witnesses: prefix the message with `h`. -/
def macW : Str → Str → Str := fun _ m => 'h' :: m

/-- Witness for `C4_signature_correctness` at a concrete secret, body,
timestamp and clock. -/
theorem C4_signature_correctness_witness :
    verifyWebhookSignature macW 99
      (sigHeaderV1 (str "99") (macW (str "sec") (str "99" ++ '.' :: str "hello")))
      (str "hello") (str "sec") 300 = .ok () :=
  (C4_signature_correctness macW (str "sec") (str "hello") 99 300 99 (str "99")
    (by decide) (by decide) (by decide) (by decide) (by decide) (by decide)
    (by decide) (by decide) (by decide) (by decide) (by decide)).1

/-- **C10**: when the parsed timestamp is `0` — which is what
`_parse_signature_header` produces for an absent, zero, or unparseable
timestamp field — `verify_webhook_signature` performs no replay check and
succeeds exactly when the provided signature equals
`HMAC-SHA256(secret, body)` over the body alone.  The final three
conjuncts exhibit the three header classes producing a parsed timestamp
of `0`. -/
theorem C10_zero_timestamp_skips_replay
    (mac : Str → Str → Str) (secret body hdr : Str) (now tol : Int)
    (hsecret : secret ≠ [])
    (hmac : mac secret body ≠ [])
    (hts : (parseSignatureHeader hdr).1 = 0) :
    (verifyWebhookSignature mac now hdr body secret tol = .ok ()
      ↔ (parseSignatureHeader hdr).2 = mac secret body)
    ∧ (∀ d : Str, CleanDigest d → (parseSignatureHeader (str "v1=" ++ d)).1 = 0)
    ∧ (∀ d : Str, CleanDigest d →
        parseSignatureHeader (sigHeaderV1 (str "0") d) = (0, d))
    ∧ (∀ d junk : Str, CleanDigest d → CleanStr junk → pyInt junk = none →
        parseSignatureHeader (sigHeaderV1 junk d) = (0, d)) := by
  refine ⟨?_, ?_, ?_, ?_⟩
  · rcases hp : parseSignatureHeader hdr with ⟨t, sg⟩
    have ht : t = 0 := by simpa [hp] using hts
    subst ht
    simp only [verifyWebhookSignature, hp]
    by_cases hsg : sg = []
    · subst hsg
      have hne : ¬ (([] : Str) = mac secret body) := fun h => hmac h.symm
      simp [hsecret, hne]
    · by_cases hc : mac secret body = sg
      · simp [hsecret, hsg, hc]
      · have hne : ¬ (sg = mac secret body) := fun h => hc h.symm
        simp [hsecret, hsg, hc, hne]
  · intro d hd
    rw [parseSignatureHeader_v1only d hd]
  · intro d hd
    rw [parseSignatureHeader_built _ _ (by decide) hd]
    rfl
  · intro d junk hd hjunk hnone
    rw [parseSignatureHeader_built _ _ hjunk hd, hnone]

/-- Witness for `C10_zero_timestamp_skips_replay`: a bare-signature header
with a matching digest verifies with no timestamp involved. -/
theorem C10_zero_timestamp_skips_replay_witness :
    verifyWebhookSignature macW 1000000
      (str "v1=" ++ macW (str "sec") (str "body")) (str "body") (str "sec") 300
      = .ok () := by
  have h := (C10_zero_timestamp_skips_replay macW (str "sec") (str "body")
    (str "v1=" ++ macW (str "sec") (str "body")) 1000000 300
    (by decide) (by decide) (by decide)).1
  exact h.mpr (by decide)

/-!
## `app/text/chunker.py`

The `NormalizationPipeline` (Unicode NFKC, control stripping, whitespace
collapsing), the tiktoken `encode`/`decode` pair and `hashlib.sha1` are
external capabilities carried inside the configuration.  The constructor
check `overlap >= max_tokens → ValueError` is embedded as the proof field
`overlap_lt`, so every `ChunkerCfg` value corresponds to a successfully
constructed `TextChunker`.
-/

/-- A chunk of text after token-based splitting (`Chunk` dataclass). -/
structure Chunk where
  rawText : Str
  normalizedText : Str
  tokenCount : Nat
  tokenStart : Nat
  hash : Str
  deriving DecidableEq, Repr

/-- A successfully constructed `TextChunker` together with its external
capabilities. -/
structure ChunkerCfg where
  normalize : Str → Str
  encode : Str → List Nat
  decode : List Nat → Str
  sha1 : Str → Str
  maxTokens : Nat
  overlap : Nat
  minTokens : Nat
  overlap_lt : overlap < maxTokens

/-- `TextChunker._build_chunk(token_slice, start)`. -/
def buildChunk (cfg : ChunkerCfg) (tokenSlice : List Nat) (start : Nat) : Option Chunk :=
  if tokenSlice = [] then none
  else if cfg.normalize (pyStrip (cfg.decode tokenSlice)) = [] then none
  else some ⟨pyStrip (cfg.decode tokenSlice),
    cfg.normalize (pyStrip (cfg.decode tokenSlice)),
    tokenSlice.length, start,
    cfg.sha1 (cfg.normalize (pyStrip (cfg.decode tokenSlice)))⟩

/-- The window handled in one iteration of the `while start < len(tokens)`
loop: the chunk list contributed by this window (empty when the chunk is
dropped by `min_tokens` or normalizes to nothing). -/
def windowChunks (cfg : ChunkerCfg) (tokens : List Nat) (start e : Nat) : List Chunk :=
  match buildChunk cfg ((tokens.drop start).take (e - start)) start with
  | some c => if cfg.minTokens ≤ c.tokenCount then [c] else []
  | none => []

/-- The chunking `while` loop of `TextChunker.chunk`, returning the chunks
it appends together with the number of loop iterations executed. -/
def chunkGo (cfg : ChunkerCfg) (tokens : List Nat) (start : Nat) : List Chunk × Nat :=
  if h : start < tokens.length then
    if min (start + cfg.maxTokens) tokens.length = tokens.length then
      (windowChunks cfg tokens start (min (start + cfg.maxTokens) tokens.length), 1)
    else if min (start + cfg.maxTokens) tokens.length - cfg.overlap
        = min (start + cfg.maxTokens) tokens.length then
      (windowChunks cfg tokens start (min (start + cfg.maxTokens) tokens.length), 1)
    else
      let rest := chunkGo cfg tokens (min (start + cfg.maxTokens) tokens.length - cfg.overlap)
      (windowChunks cfg tokens start (min (start + cfg.maxTokens) tokens.length) ++ rest.1,
        rest.2 + 1)
  else ([], 0)
termination_by tokens.length - start
decreasing_by
  simp_wf
  have hov := cfg.overlap_lt
  omega

/-- `TextChunker.chunk(text)` with its loop-iteration count. -/
def chunkRun (cfg : ChunkerCfg) (text : Str) : List Chunk × Nat :=
  let normalized := cfg.normalize text
  let tokens := cfg.encode normalized
  if tokens = [] then ([], 0)
  else if tokens.length ≤ cfg.maxTokens then
    (match buildChunk cfg tokens 0 with
     | some c => if cfg.minTokens ≤ c.tokenCount then [c] else []
     | none => [], 0)
  else chunkGo cfg tokens 0

/-- `TextChunker.chunk(text)`: the returned chunk list. -/
def chunkText (cfg : ChunkerCfg) (text : Str) : List Chunk :=
  (chunkRun cfg text).1

lemma buildChunk_tokenStart {cfg : ChunkerCfg} {s : List Nat} {start : Nat} {c : Chunk}
    (h : buildChunk cfg s start = some c) : c.tokenStart = start := by
  unfold buildChunk at h
  split at h
  · exact absurd h (by simp)
  · split at h
    · exact absurd h (by simp)
    · cases h
      rfl

lemma buildChunk_tokenCount {cfg : ChunkerCfg} {s : List Nat} {start : Nat} {c : Chunk}
    (h : buildChunk cfg s start = some c) : c.tokenCount = s.length := by
  unfold buildChunk at h
  split at h
  · exact absurd h (by simp)
  · split at h
    · exact absurd h (by simp)
    · cases h
      rfl

lemma windowChunks_tokenStart {cfg : ChunkerCfg} {tokens : List Nat} {start e : Nat} :
    ∀ c ∈ windowChunks cfg tokens start e, c.tokenStart = start := by
  intro c hc
  unfold windowChunks at hc
  split at hc
  next c' heq =>
    split at hc
    · simp only [List.mem_singleton] at hc
      subst hc
      exact buildChunk_tokenStart heq
    · cases hc
  next heq => cases hc

lemma windowChunks_short {cfg : ChunkerCfg} {tokens : List Nat} {start e : Nat} :
    windowChunks cfg tokens start e = [] ∨
      ∃ c, windowChunks cfg tokens start e = [c] ∧ c.tokenStart = start := by
  unfold windowChunks
  split
  next c' heq =>
    split
    · right
      exact ⟨c', rfl, buildChunk_tokenStart heq⟩
    · left; rfl
  next heq => left; rfl

/-- Iteration-count bound for the chunking loop: every iteration that
recurses advances `start` by exactly `max_tokens - overlap`. -/
lemma chunkGo_iters_le (cfg : ChunkerCfg) (tokens : List Nat) :
    ∀ (m start : Nat), tokens.length - start = m →
      (chunkGo cfg tokens start).2 ≤ m / (cfg.maxTokens - cfg.overlap) + 1 := by
  intro m
  induction m using Nat.strong_induction_on with
  | _ m IH =>
    intro start hm
    by_cases h : start < tokens.length
    · unfold chunkGo
      rw [dif_pos h]
      by_cases he : min (start + cfg.maxTokens) tokens.length = tokens.length
      · simp [he]
      · rw [if_neg he]
        by_cases hs : min (start + cfg.maxTokens) tokens.length - cfg.overlap
            = min (start + cfg.maxTokens) tokens.length
        · simp [hs]
        · rw [if_neg hs]
          have hov := cfg.overlap_lt
          have emin : min (start + cfg.maxTokens) tokens.length = start + cfg.maxTokens := by
            omega
          have hstep : 0 < cfg.maxTokens - cfg.overlap := by omega
          have hlt : start + cfg.maxTokens < tokens.length := by omega
          have hm' : tokens.length -
              (min (start + cfg.maxTokens) tokens.length - cfg.overlap)
              = m - (cfg.maxTokens - cfg.overlap) := by omega
          have hless : m - (cfg.maxTokens - cfg.overlap) < m := by omega
          have hrec := IH _ hless _ hm'
          simp only []
          have harith : m / (cfg.maxTokens - cfg.overlap)
              = (m - (cfg.maxTokens - cfg.overlap)) / (cfg.maxTokens - cfg.overlap) + 1 := by
            rw [Nat.div_eq_sub_div hstep (by omega)]
          simp only [harith]
          omega
    · unfold chunkGo
      rw [dif_neg h]
      simp

/-- Chunks come out of the loop with non-decreasing (in fact, within one
run, strictly increasing) `token_start` offsets, all at or after the
starting offset. -/
lemma chunkGo_sorted (cfg : ChunkerCfg) (tokens : List Nat) :
    ∀ (m start : Nat), tokens.length - start = m →
      ((chunkGo cfg tokens start).1.map Chunk.tokenStart).Sorted (· ≤ ·) ∧
        ∀ c ∈ (chunkGo cfg tokens start).1, start ≤ c.tokenStart := by
  intro m
  induction m using Nat.strong_induction_on with
  | _ m IH =>
    intro start hm
    by_cases h : start < tokens.length
    · unfold chunkGo
      rw [dif_pos h]
      by_cases he : min (start + cfg.maxTokens) tokens.length = tokens.length
      · rw [if_pos he]
        rcases @windowChunks_short cfg tokens start
            (min (start + cfg.maxTokens) tokens.length) with hw | ⟨c, hw, hcs⟩
        · simp [hw]
        · simp [hw, hcs]
      · rw [if_neg he]
        by_cases hs : min (start + cfg.maxTokens) tokens.length - cfg.overlap
            = min (start + cfg.maxTokens) tokens.length
        · rw [if_pos hs]
          rcases @windowChunks_short cfg tokens start
              (min (start + cfg.maxTokens) tokens.length) with hw | ⟨c, hw, hcs⟩
          · simp [hw]
          · simp [hw, hcs]
        · rw [if_neg hs]
          have hov := cfg.overlap_lt
          have emin : min (start + cfg.maxTokens) tokens.length = start + cfg.maxTokens := by
            omega
          have hm' : tokens.length -
              (min (start + cfg.maxTokens) tokens.length - cfg.overlap)
              = m - (cfg.maxTokens - cfg.overlap) := by omega
          have hless : m - (cfg.maxTokens - cfg.overlap) < m := by omega
          have hrec := IH _ hless _ hm'
          have hstart' : start < min (start + cfg.maxTokens) tokens.length - cfg.overlap := by
            omega
          simp only [List.map_append, List.Sorted]
          rw [List.pairwise_append]
          refine ⟨⟨?_, hrec.1, ?_⟩, ?_⟩
          · rcases @windowChunks_short cfg tokens start
                (min (start + cfg.maxTokens) tokens.length) with hw | ⟨c, hw, hcs⟩ <;>
              simp [hw]
          · intro a ha b hb
            rcases List.mem_map.mp ha with ⟨ca, hca, rfl⟩
            rcases List.mem_map.mp hb with ⟨cb, hcb, rfl⟩
            have h1 := windowChunks_tokenStart ca hca
            have h2 := hrec.2 cb hcb
            omega
          · intro c hc
            rcases List.mem_append.mp hc with hc1 | hc2
            · exact le_of_eq (windowChunks_tokenStart c hc1).symm
            · exact le_trans (le_of_lt hstart') (hrec.2 c hc2)
    · unfold chunkGo
      rw [dif_neg h]
      simp

/-- **C7**: for every input text and chunker configuration (whose
construction already enforces `overlap < max_tokens`), the chunking loop
of `TextChunker.chunk` executes at most
`⌈token_count / (max_tokens - overlap)⌉ + 1` iterations, and the
`token_start` offsets of the returned chunks are non-decreasing in output
order. -/
theorem C7_chunker_termination_and_offsets (cfg : ChunkerCfg) (text : Str) :
    (chunkRun cfg text).2 ≤
      ((cfg.encode (cfg.normalize text)).length + (cfg.maxTokens - cfg.overlap) - 1)
        / (cfg.maxTokens - cfg.overlap) + 1
    ∧ ((chunkText cfg text).map Chunk.tokenStart).Sorted (· ≤ ·) := by
  have hov := cfg.overlap_lt
  have hstep : 0 < cfg.maxTokens - cfg.overlap := by omega
  unfold chunkText chunkRun
  by_cases hz : cfg.encode (cfg.normalize text) = []
  · simp [hz]
  · rw [if_neg hz]
    by_cases hshort : (cfg.encode (cfg.normalize text)).length ≤ cfg.maxTokens
    · rw [if_pos hshort]
      constructor
      · simp
      · split
        · split <;> simp
        · simp
    · rw [if_neg hshort]
      constructor
      · refine le_trans
          (chunkGo_iters_le cfg (cfg.encode (cfg.normalize text))
            (cfg.encode (cfg.normalize text)).length 0 (by omega)) ?_
        have hmono : (cfg.encode (cfg.normalize text)).length
            ≤ (cfg.encode (cfg.normalize text)).length + (cfg.maxTokens - cfg.overlap) - 1 := by
          omega
        exact Nat.add_le_add_right (Nat.div_le_div_right hmono) 1
      · exact (chunkGo_sorted cfg _ _ 0 rfl).1

/-- **C9**: with `overlap = 0` and an input tokenizing to strictly more
than `max_tokens` tokens, `TextChunker.chunk` emits only the first
window's contribution (the chunk built from the first `max_tokens`
tokens, subject to the usual `min_tokens`/empty-normalization filter) and
stops after a single loop iteration: the new start equals the window end,
so the `start == end` guard fires and all remaining tokens are silently
discarded. -/
theorem C9_zero_overlap_single_window (cfg : ChunkerCfg) (text : Str)
    (hov : cfg.overlap = 0)
    (hlong : cfg.maxTokens < (cfg.encode (cfg.normalize text)).length) :
    chunkText cfg text =
      windowChunks cfg (cfg.encode (cfg.normalize text)) 0 cfg.maxTokens
    ∧ (chunkRun cfg text).2 = 1 := by
  have hmax : 0 < cfg.maxTokens := by
    have := cfg.overlap_lt
    omega
  have hz : cfg.encode (cfg.normalize text) ≠ [] := by
    intro h
    rw [h] at hlong
    simp at hlong
  have hshort : ¬ ((cfg.encode (cfg.normalize text)).length ≤ cfg.maxTokens) := by omega
  have h0 : 0 < (cfg.encode (cfg.normalize text)).length := by omega
  have emin : min (0 + cfg.maxTokens) (cfg.encode (cfg.normalize text)).length
      = cfg.maxTokens := by omega
  have he : ¬ (min (0 + cfg.maxTokens) (cfg.encode (cfg.normalize text)).length
      = (cfg.encode (cfg.normalize text)).length) := by omega
  have hs : min (0 + cfg.maxTokens) (cfg.encode (cfg.normalize text)).length - cfg.overlap
      = min (0 + cfg.maxTokens) (cfg.encode (cfg.normalize text)).length := by omega
  unfold chunkText chunkRun
  rw [if_neg hz, if_neg hshort]
  unfold chunkGo
  rw [dif_pos h0, if_neg he, if_pos hs, emin]
  exact ⟨rfl, rfl⟩

/-- A concrete chunker configuration for witnesses: identity
normalization, code-point tokenization, constant decode, `max_tokens = 1`,
`overlap = 0`, `min_tokens = 1`. -/
def cfgW : ChunkerCfg where
  normalize := id
  encode := fun s => s.map Char.toNat
  decode := fun _ => str "w"
  sha1 := id
  maxTokens := 1
  overlap := 0
  minTokens := 1
  overlap_lt := by decide

/-- Witness for `C9_zero_overlap_single_window`: a two-token input with
`max_tokens = 1, overlap = 0` yields exactly the first window's chunk. -/
theorem C9_zero_overlap_single_window_witness :
    chunkText cfgW (str "ab") = [⟨str "w", str "w", 1, 0, str "w"⟩]
    ∧ (chunkRun cfgW (str "ab")).2 = 1 := by
  have h := C9_zero_overlap_single_window cfgW (str "ab") rfl (by decide)
  refine ⟨?_, h.2⟩
  rw [h.1]
  rfl

/-!
## Data model (`app/memory/pinecone_store.py`, `app/callbacks.py`)

JSON values (as produced by Python's `json.loads`) and the `MemoryRecord`
dataclass.  Python floats never reach any computation the claims touch, so
JSON numbers are modelled as integers and embedding vectors as rationals.
`datetime` instants are modelled as integers (UTC epoch values); the
`__post_init__` normalization `astimezone(timezone.utc)` is the identity
on them.
-/

/-- A decoded JSON value (`json.loads` output). -/
inductive Json where
  | null
  | bool (b : Bool)
  | num (n : Int)
  | str (s : Str)
  | arr (xs : List Json)
  | obj (fields : List (Str × Json))

/-- `MemorySpeaker` enum. -/
inductive MemorySpeaker where
  | user
  | assistant
  | system
  | other
  deriving DecidableEq, Repr

/-- The `MemoryRecord` dataclass (Pinecone flavour). -/
structure MemoryRecord where
  id : Str
  conv_id : Str
  turn : Int
  speaker : MemorySpeaker
  ts : Int
  raw_text : Str
  normalized_text : Str
  vector : List Rat
  tags : List Json
  hash : Str
  source : Str
  embed_model : Str
  embed_dim : Nat
  user_id : Str

/-!
## Association lists

Python `dict`s (`_records`, `_id_to_label`, `_hash_to_label`) are modelled
as association lists in insertion order: assignment to an existing key
keeps its position, assignment to a new key appends, `pop` removes the
entry.  All states reachable by the hot-index operations keep their key
lists duplicate-free.
-/

/-- Dictionary lookup. -/
def alFind {α β : Type} [DecidableEq α] (k : α) : List (α × β) → Option β
  | [] => none
  | (k', v) :: t => if k' = k then some v else alFind k t

/-- Dictionary assignment `d[k] = v`. -/
def alInsert {α β : Type} [DecidableEq α] (k : α) (v : β) : List (α × β) → List (α × β)
  | [] => [(k, v)]
  | (k', v') :: t => if k' = k then (k, v) :: t else (k', v') :: alInsert k v t

/-- Dictionary removal `d.pop(k, None)`. -/
def alErase {α β : Type} [DecidableEq α] (k : α) : List (α × β) → List (α × β)
  | [] => []
  | (k', v') :: t => if k' = k then t else (k', v') :: alErase k t

/-- The key list of an association list. -/
def alKeys {α β : Type} (l : List (α × β)) : List α := l.map Prod.fst

section AListLemmas

variable {α β : Type} [DecidableEq α]

lemma alFind_insert_self (k : α) (v : β) (l : List (α × β)) :
    alFind k (alInsert k v l) = some v := by
  induction l with
  | nil => simp [alInsert, alFind]
  | cons p t ih =>
    obtain ⟨a, b⟩ := p
    by_cases h : a = k
    · subst h
      simp [alInsert, alFind]
    · simp [alInsert, alFind, h, ih]

lemma alFind_insert_ne {k k' : α} (hne : k' ≠ k) (v : β) (l : List (α × β)) :
    alFind k' (alInsert k v l) = alFind k' l := by
  induction l with
  | nil => simp [alInsert, alFind, Ne.symm hne]
  | cons p t ih =>
    obtain ⟨a, b⟩ := p
    by_cases h : a = k
    · subst h
      simp [alInsert, alFind, Ne.symm hne]
    · by_cases h' : a = k'
      · subst h'
        simp [alInsert, alFind, h]
      · simp [alInsert, alFind, h, h', ih]

lemma alFind_erase_ne {k k' : α} (hne : k' ≠ k) (l : List (α × β)) :
    alFind k' (alErase k l) = alFind k' l := by
  induction l with
  | nil => simp [alErase]
  | cons p t ih =>
    obtain ⟨a, b⟩ := p
    by_cases h : a = k
    · subst h
      simp [alErase, alFind, Ne.symm hne]
    · by_cases h' : a = k'
      · subst h'
        simp [alErase, alFind, h]
      · simp [alErase, alFind, h, h', ih]

lemma alFind_eq_none_iff (k : α) (l : List (α × β)) :
    alFind k l = none ↔ k ∉ alKeys l := by
  induction l with
  | nil => simp [alFind, alKeys]
  | cons p t ih =>
    obtain ⟨a, b⟩ := p
    by_cases h : a = k
    · subst h
      simp [alFind, alKeys]
    · simp [alFind, alKeys, h, ih, Ne.symm h]

lemma alFind_some_mem {k : α} {v : β} {l : List (α × β)}
    (h : alFind k l = some v) : (k, v) ∈ l := by
  induction l with
  | nil => simp [alFind] at h
  | cons p t ih =>
    obtain ⟨a, b⟩ := p
    by_cases hp : a = k
    · subst hp
      rw [alFind, if_pos rfl] at h
      cases h
      exact List.mem_cons_self _ _
    · rw [alFind, if_neg hp] at h
      exact List.mem_cons_of_mem _ (ih h)

lemma alErase_eq_filter {k : α} {l : List (α × β)} (hnd : (alKeys l).Nodup) :
    alErase k l = l.filter (fun p => decide (p.1 ≠ k)) := by
  induction l with
  | nil => rfl
  | cons p t ih =>
    obtain ⟨a, b⟩ := p
    rw [alKeys, List.map_cons, List.nodup_cons] at hnd
    by_cases h : a = k
    · subst h
      rw [alErase, if_pos rfl]
      have ht : List.filter (fun p => decide (p.1 ≠ a)) t = t := by
        apply List.filter_eq_self.mpr
        intro q hq
        have hq1 : q.1 ≠ a := by
          intro he
          apply hnd.1
          show a ∈ List.map Prod.fst t
          rw [← he]
          exact List.mem_map_of_mem Prod.fst hq
        simpa using hq1
      rw [List.filter_cons]
      simp only [ne_eq, decide_not] at ht ⊢
      simp [ht]
    · rw [alErase, if_neg h, List.filter_cons]
      simp [h, ih hnd.2]

lemma alFind_erase_self (k : α) {l : List (α × β)} (hnd : (alKeys l).Nodup) :
    alFind k (alErase k l) = none := by
  rw [alErase_eq_filter hnd, alFind_eq_none_iff]
  intro hmem
  rcases List.mem_map.mp hmem with ⟨p, hp, rfl⟩
  rcases List.mem_filter.mp hp with ⟨_, hne⟩
  simp at hne

lemma mem_alKeys_insert {x k : α} {v : β} {l : List (α × β)} :
    x ∈ alKeys (alInsert k v l) ↔ x = k ∨ x ∈ alKeys l := by
  induction l with
  | nil => simp [alInsert, alKeys]
  | cons p t ih =>
    obtain ⟨a, b⟩ := p
    by_cases h : a = k
    · subst h
      have hins : alInsert a v ((a, b) :: t) = (a, v) :: t := by
        rw [alInsert, if_pos rfl]
      rw [hins, alKeys, List.map_cons, List.mem_cons, alKeys, List.map_cons, List.mem_cons]
      tauto
    · simp only [alInsert, if_neg h, alKeys, List.map_cons, List.mem_cons]
      have ihh : x ∈ List.map Prod.fst (alInsert k v t) ↔ x = k ∨ x ∈ List.map Prod.fst t := ih
      rw [ihh]
      tauto

lemma alKeys_insert_nodup {k : α} {v : β} {l : List (α × β)}
    (hnd : (alKeys l).Nodup) : (alKeys (alInsert k v l)).Nodup := by
  induction l with
  | nil => simp [alInsert, alKeys]
  | cons p t ih =>
    obtain ⟨a, b⟩ := p
    rw [alKeys, List.map_cons, List.nodup_cons] at hnd
    by_cases h : a = k
    · subst h
      rw [alInsert, if_pos rfl, alKeys, List.map_cons, List.nodup_cons]
      exact hnd
    · rw [alInsert, if_neg h, alKeys, List.map_cons, List.nodup_cons]
      refine ⟨?_, ih hnd.2⟩
      intro hmem
      have hmem' : a ∈ alKeys (alInsert k v t) := hmem
      rcases mem_alKeys_insert.mp hmem' with rfl | hmem''
      · exact h rfl
      · exact hnd.1 hmem''

lemma alKeys_erase_sublist (k : α) (l : List (α × β)) (hnd : (alKeys l).Nodup) :
    (alKeys (alErase k l)).Sublist (alKeys l) := by
  rw [alErase_eq_filter hnd]
  exact (List.filter_sublist _).map Prod.fst

lemma alKeys_erase_nodup {k : α} {l : List (α × β)}
    (hnd : (alKeys l).Nodup) : (alKeys (alErase k l)).Nodup :=
  hnd.sublist (alKeys_erase_sublist k l hnd)

end AListLemmas

/-!
## `app/memory/index.py` — `HotIndexManager`

The hnswlib `Index` itself (graph construction, `add_items`,
`mark_deleted`, `knn_query`) is an external capability; the model keeps
the manager's own bookkeeping — the `_records` / `_id_to_label` /
`_hash_to_label` dictionaries, the free-label stack, `_next_label`, the
metrics `size`, and the index's initialization flag and capacity (which
`_ensure_initialized` / `_allocate_label` manage).  The Python free-label
list is kept with its top (the `pop()` end) at the head.
-/

/-- The mutable state of a `HotIndexManager`. -/
structure HotIndexState where
  records : List (Nat × MemoryRecord)
  idToLabel : List (Str × Nat)
  hashToLabel : List (Str × Nat)
  freeLabels : List Nat
  nextLabel : Nat
  size : Nat
  initialized : Bool
  capacity : Nat

/-- The state of a freshly constructed `HotIndexManager`. -/
def emptyHotIndex : HotIndexState :=
  { records := [], idToLabel := [], hashToLabel := [], freeLabels := []
    nextLabel := 0, size := 0, initialized := false, capacity := 0 }

/-- `_ensure_initialized(capacity)`: first call initializes the hnsw index
with `max(capacity, 128)` elements; later calls grow it to
`max(capacity, int(current * 1.5))` when needed. -/
def ensureInitialized (st : HotIndexState) (cap : Nat) : HotIndexState :=
  if ¬ st.initialized then
    { st with capacity := max cap 128, initialized := true }
  else if cap > st.capacity then
    { st with capacity := max cap (3 * st.capacity / 2) }
  else st

/-- `_allocate_label()`: pop the free list, or extend the dense range
(resizing the index when the new label exceeds its capacity). -/
def allocateLabel (st : HotIndexState) : Nat × HotIndexState :=
  match st.freeLabels with
  | l :: rest => (l, { st with freeLabels := rest })
  | [] =>
    let label := st.nextLabel
    if st.initialized ∧ label + 1 > st.capacity then
      (label, { st with nextLabel := label + 1
                        capacity := max (label + 1) (3 * st.capacity / 2) })
    else (label, { st with nextLabel := label + 1 })

/-- The per-record body of the `add_or_update` loop: skip on dimension
mismatch, otherwise find a label by `id`, then by `hash`, then allocate,
and update the three dictionaries.  Returns the updated state and `1`
when the record was added/updated. -/
def applyMaps (st : HotIndexState) (l : Nat) (r : MemoryRecord) : HotIndexState :=
  { st with records := alInsert l r st.records
            idToLabel := alInsert r.id l st.idToLabel
            hashToLabel := alInsert r.hash l st.hashToLabel }

def addOne (embedDim : Nat) (st : HotIndexState) (r : MemoryRecord) :
    HotIndexState × Nat :=
  if r.vector.length ≠ embedDim then (st, 0)
  else
    match alFind r.id st.idToLabel with
    | some l => (applyMaps st l r, 1)
    | none =>
      match alFind r.hash st.hashToLabel with
      | some l => (applyMaps st l r, 1)
      | none => (applyMaps (allocateLabel st).2 (allocateLabel st).1 r, 1)

/-- The `for record in payload` loop of `add_or_update`, threading the
accepted-record count. -/
def addFold (embedDim : Nat) :
    List MemoryRecord → HotIndexState → Nat → HotIndexState × Nat
  | [], st, n => (st, n)
  | r :: rest, st, n =>
    addFold embedDim rest (addOne embedDim st r).1 (n + (addOne embedDim st r).2)

/-- `add_or_update(records)`: ensure capacity, process each record, and —
when at least one vector was accepted — refresh `metrics.size`.  Returns
the count of records actually added/updated. -/
def addOrUpdate (embedDim : Nat) (st : HotIndexState) (rs : List MemoryRecord) :
    HotIndexState × Nat :=
  if rs.isEmpty then (st, 0)
  else if (addFold embedDim rs
      (ensureInitialized st (st.records.length + rs.length + 16)) 0).2 = 0 then
    ((addFold embedDim rs
      (ensureInitialized st (st.records.length + rs.length + 16)) 0).1, 0)
  else
    ({ (addFold embedDim rs
          (ensureInitialized st (st.records.length + rs.length + 16)) 0).1 with
        size := (addFold embedDim rs
          (ensureInitialized st (st.records.length + rs.length + 16)) 0).1.records.length },
      (addFold embedDim rs
        (ensureInitialized st (st.records.length + rs.length + 16)) 0).2)

/-- The state change for evicting the record `s` held at label `l`:
`mark_deleted` on the ANN side (external), pop from `_records`, push the
label on the free list, drop the `id`/`hash` entries. -/
def evictState (st : HotIndexState) (l : Nat) (s : MemoryRecord) : HotIndexState :=
  { st with records := alErase l st.records
            freeLabels := l :: st.freeLabels
            idToLabel := alErase s.id st.idToLabel
            hashToLabel := alErase s.hash st.hashToLabel }

/-- The body of the `evict_older_than` sweep over the snapshot
`list(self._records.items())`. -/
def evictLoop (cutoff : Int) :
    List (Nat × MemoryRecord) → HotIndexState → Nat → HotIndexState × Nat
  | [], st, n => (st, n)
  | p :: rest, st, n =>
    if p.2.ts < cutoff then
      evictLoop cutoff rest (evictState st p.1 p.2) (n + 1)
    else evictLoop cutoff rest st n

/-- `evict_older_than(cutoff)`: no-op on an empty index; otherwise sweep
the snapshot and refresh `metrics.size` when anything was evicted. -/
def evictOlderThan (st : HotIndexState) (cutoff : Int) : HotIndexState × Nat :=
  if st.records.isEmpty then (st, 0)
  else if (evictLoop cutoff st.records st 0).2 ≠ 0 then
    ({ (evictLoop cutoff st.records st 0).1 with
        size := (evictLoop cutoff st.records st 0).1.records.length },
      (evictLoop cutoff st.records st 0).2)
  else evictLoop cutoff st.records st 0

/-- The state right after `rebuild` discards the index, maps and free
list (a fresh, uninitialized hnsw index; `metrics.size` untouched yet). -/
def clearedIndex (st : HotIndexState) : HotIndexState :=
  { records := [], idToLabel := [], hashToLabel := [], freeLabels := []
    nextLabel := 0, size := st.size, initialized := false, capacity := 0 }

/-- `rebuild(records)`: discard all state (fresh uninitialized index,
empty maps and free list), re-add the given records, refresh
`metrics.size`. -/
def rebuildIndex (embedDim : Nat) (st : HotIndexState) (rs : List MemoryRecord) :
    HotIndexState :=
  if rs.isEmpty then { clearedIndex st with size := 0 }
  else { (addOrUpdate embedDim (clearedIndex st) rs).1 with
          size := (addOrUpdate embedDim (clearedIndex st) rs).1.records.length }

/-- `query(vector, topk)`: the ANN search `knn_query` is an external
capability supplying `(label, distance)` pairs for the requested `k`;
results are resolved through `_records` (labels unknown to the map are
skipped) and scored `max(0, 1 - distance)`. -/
def hotQuery (st : HotIndexState) (knn : Nat → List (Nat × Rat)) (topk : Nat) :
    List (MemoryRecord × Rat) :=
  if ¬ st.initialized ∨ st.records.isEmpty then []
  else if min topk st.records.length = 0 then []
  else
    (knn (min topk st.records.length)).filterMap fun ld =>
      match alFind ld.1 st.records with
      | some r => some (r, max 0 (1 - ld.2))
      | none => none

/-! ### Eviction correctness (C6) -/

lemma alFind_of_mem_nodup {α β : Type} [DecidableEq α] {k : α} {v : β}
    {l : List (α × β)} (hmem : (k, v) ∈ l) (hnd : (alKeys l).Nodup) :
    alFind k l = some v := by
  induction l with
  | nil => cases hmem
  | cons p t ih =>
    obtain ⟨a, b⟩ := p
    rw [alKeys, List.map_cons, List.nodup_cons] at hnd
    rcases List.mem_cons.mp hmem with heq | hmem'
    · cases heq
      rw [alFind, if_pos rfl]
    · have hk : k ∈ alKeys t := List.mem_map_of_mem Prod.fst hmem'
      have hak : a ≠ k := fun he => hnd.1 (he ▸ hk)
      rw [alFind, if_neg hak]
      exact ih hmem' hnd.2

lemma alMem_unique {α β : Type} [DecidableEq α] {k : α} {v v' : β}
    {l : List (α × β)} (hnd : (alKeys l).Nodup)
    (h1 : (k, v) ∈ l) (h2 : (k, v') ∈ l) : v = v' := by
  have e1 := alFind_of_mem_nodup h1 hnd
  have e2 := alFind_of_mem_nodup h2 hnd
  rw [e1] at e2
  cases e2
  rfl

lemma evictLoop_count (cutoff : Int) :
    ∀ (snap : List (Nat × MemoryRecord)) (st : HotIndexState) (n : Nat),
      (evictLoop cutoff snap st n).2
        = n + (snap.filter (fun p => decide (p.2.ts < cutoff))).length := by
  intro snap
  induction snap with
  | nil => intro st n; simp [evictLoop]
  | cons p rest ih =>
    intro st n
    rw [evictLoop]
    by_cases hts : p.2.ts < cutoff
    · rw [if_pos hts, ih, List.filter_cons]
      simp [hts]
      omega
    · rw [if_neg hts, ih, List.filter_cons]
      simp [hts]

lemma evictLoop_records (cutoff : Int) :
    ∀ (snap : List (Nat × MemoryRecord)) (st : HotIndexState) (n : Nat),
      (alKeys st.records).Nodup →
      (alKeys snap).Nodup →
      (∀ p ∈ snap, alFind p.1 st.records = some p.2) →
      (evictLoop cutoff snap st n).1.records
        = st.records.filter
            (fun q => decide
              (q.1 ∉ alKeys (snap.filter (fun p => decide (p.2.ts < cutoff))))) := by
  intro snap
  induction snap with
  | nil =>
    intro st n _ _ _
    rw [evictLoop]
    symm
    apply List.filter_eq_self.mpr
    intro q _
    simp [alKeys]
  | cons p rest ih =>
    intro st n hnd hsnap hfind
    rw [alKeys, List.map_cons, List.nodup_cons] at hsnap
    rw [evictLoop]
    by_cases hts : p.2.ts < cutoff
    · rw [if_pos hts]
      have hner : ∀ q ∈ rest, q.1 ≠ p.1 := by
        intro q hq he
        exact hsnap.1 (he ▸ List.mem_map_of_mem Prod.fst hq)
      have hrec := ih (evictState st p.1 p.2) (n + 1)
        (alKeys_erase_nodup hnd) hsnap.2
        (by
          intro q hq
          show alFind q.1 (alErase p.1 st.records) = some q.2
          rw [alFind_erase_ne (hner q hq)]
          exact hfind q (List.mem_cons_of_mem _ hq))
      rw [hrec]
      show (alErase p.1 st.records).filter _ = _
      rw [alErase_eq_filter hnd, List.filter_filter]
      have hfc : (p :: rest).filter (fun p => decide (p.2.ts < cutoff))
          = p :: rest.filter (fun p => decide (p.2.ts < cutoff)) := by
        rw [List.filter_cons, if_pos (by simpa using hts)]
      rw [hfc]
      apply List.filter_congr
      intro q _
      have hmm : alKeys (p :: List.filter (fun p => decide (p.2.ts < cutoff)) rest)
          = p.1 :: alKeys (List.filter (fun p => decide (p.2.ts < cutoff)) rest) := rfl
      rw [hmm]
      by_cases h1 : q.1 ∈ alKeys (List.filter (fun p => decide (p.2.ts < cutoff)) rest) <;>
        by_cases h2 : q.1 = p.1 <;>
        simp [h1, h2, List.mem_cons]
    · rw [if_neg hts]
      have hfc : (p :: rest).filter (fun p => decide (p.2.ts < cutoff))
          = rest.filter (fun p => decide (p.2.ts < cutoff)) := by
        rw [List.filter_cons, if_neg (by simpa using hts)]
      rw [hfc]
      exact ih st n hnd hsnap.2
        (fun q hq => hfind q (List.mem_cons_of_mem _ hq))

lemma evictOlderThan_characterized (st : HotIndexState) (cutoff : Int)
    (hnd : (alKeys st.records).Nodup) :
    (evictOlderThan st cutoff).1.records
        = st.records.filter (fun q => decide (¬ q.2.ts < cutoff))
    ∧ (evictOlderThan st cutoff).2
        = (st.records.filter (fun q => decide (q.2.ts < cutoff))).length := by
  by_cases hempty : st.records.isEmpty
  · have hrec : st.records = [] := List.isEmpty_iff.mp hempty
    rw [evictOlderThan, if_pos hempty]
    simp [hrec]
  · rw [evictOlderThan, if_neg hempty]
    have hfind : ∀ p ∈ st.records, alFind p.1 st.records = some p.2 := by
      intro p hp
      exact alFind_of_mem_nodup (by simpa using hp) hnd
    have hrecords := evictLoop_records cutoff st.records st 0 hnd hnd hfind
    have hcount := evictLoop_count cutoff st.records st 0
    have hptwise : st.records.filter
        (fun q => decide
          (q.1 ∉ alKeys (st.records.filter (fun p => decide (p.2.ts < cutoff)))))
        = st.records.filter (fun q => decide (¬ q.2.ts < cutoff)) := by
      apply List.filter_congr
      intro q hq
      have hiff : (q.1 ∉ alKeys (st.records.filter (fun p => decide (p.2.ts < cutoff))))
          ↔ ¬ q.2.ts < cutoff := by
        constructor
        · intro hnm hts
          exact hnm (List.mem_map_of_mem Prod.fst
            (List.mem_filter.mpr ⟨hq, by simpa using hts⟩))
        · intro hts hmem
          rcases List.mem_map.mp hmem with ⟨r, hr, hre⟩
          rcases List.mem_filter.mp hr with ⟨hrmem, hrts⟩
          have : q.2 = r.2 := by
            have h1 : (q.1, q.2) ∈ st.records := by simpa using hq
            have h2 : (q.1, r.2) ∈ st.records := by
              rw [← hre]
              simpa using hrmem
            exact alMem_unique hnd h1 h2
          rw [this] at hts
          exact hts (by simpa using hrts)
      simp only [hiff]
    by_cases hz : (evictLoop cutoff st.records st 0).2 ≠ 0
    · rw [if_pos hz]
      exact ⟨by rw [show ({ (evictLoop cutoff st.records st 0).1 with
          size := (evictLoop cutoff st.records st 0).1.records.length } :
            HotIndexState).records
          = (evictLoop cutoff st.records st 0).1.records from rfl, hrecords, hptwise],
        by simpa using hcount⟩
    · rw [if_neg hz]
      exact ⟨by rw [hrecords, hptwise], by simpa using hcount⟩

/-- **C6**: after `evict_older_than(cutoff)` on a state whose `size`
metric agrees with its live map (as every reachable state's does), no
record with `timestamp < cutoff` is returned by a query in the resulting
state — for any behaviour of the external ANN search — and `size` equals
the number of records with `timestamp ≥ cutoff` held immediately before
the call; on an empty index the call is a no-op returning `0`. -/
theorem C6_eviction_correctness (st : HotIndexState) (cutoff : Int)
    (hsize : st.size = st.records.length)
    (hnd : (alKeys st.records).Nodup) :
    (∀ (knn : Nat → List (Nat × Rat)) (topk : Nat),
        ∀ p ∈ hotQuery (evictOlderThan st cutoff).1 knn topk, cutoff ≤ p.1.ts)
    ∧ (evictOlderThan st cutoff).1.size
        = (st.records.filter (fun q => decide (cutoff ≤ q.2.ts))).length
    ∧ (st.records = [] → evictOlderThan st cutoff = (st, 0)) := by
  have hchar := evictOlderThan_characterized st cutoff hnd
  have hkeep : st.records.filter (fun q => decide (¬ q.2.ts < cutoff))
      = st.records.filter (fun q => decide (cutoff ≤ q.2.ts)) := by
    apply List.filter_congr
    intro q _
    rw [decide_eq_decide]
    exact not_lt
  refine ⟨?_, ?_, ?_⟩
  · intro knn topk p hp
    unfold hotQuery at hp
    split at hp
    · cases hp
    · split at hp
      · cases hp
      · rcases List.mem_filterMap.mp hp with ⟨ld, _, hmatch⟩
        split at hmatch
        · next r heq =>
          cases hmatch
          have hmem := alFind_some_mem heq
          rw [hchar.1, hkeep] at hmem
          have := (List.mem_filter.mp hmem).2
          simpa using this
        · cases hmatch
  · by_cases hempty : st.records.isEmpty
    · have hrec : st.records = [] := List.isEmpty_iff.mp hempty
      rw [evictOlderThan, if_pos hempty]
      simp [hrec, hsize]
    · by_cases hz : (evictLoop cutoff st.records st 0).2 ≠ 0
      · have h1 : (evictLoop cutoff st.records st 0).1.records
            = (evictOlderThan st cutoff).1.records := by
          rw [evictOlderThan, if_neg hempty, if_pos hz]
        rw [evictOlderThan, if_neg hempty, if_pos hz]
        show (evictLoop cutoff st.records st 0).1.records.length = _
        rw [h1, hchar.1, hkeep]
      · rw [evictOlderThan, if_neg hempty, if_neg hz]
        push_neg at hz
        have hcount := evictLoop_count cutoff st.records st 0
        rw [hz] at hcount
        have hall : ∀ q ∈ st.records, cutoff ≤ q.2.ts := by
          intro q hq
          by_contra hlt
          push_neg at hlt
          have hmemf : q ∈ st.records.filter (fun p => decide (p.2.ts < cutoff)) :=
            List.mem_filter.mpr ⟨hq, by simpa using hlt⟩
          have hlen : (st.records.filter (fun p => decide (p.2.ts < cutoff))).length ≠ 0 :=
            (List.length_pos.mpr (List.ne_nil_of_mem hmemf)).ne'
          omega
        have hz0 : (evictLoop cutoff st.records st 0).1 = st := by
          have hgen : ∀ (snap : List (Nat × MemoryRecord)) (s : HotIndexState) (n : Nat),
              (∀ q ∈ snap, ¬ q.2.ts < cutoff) → (evictLoop cutoff snap s n).1 = s := by
            intro snap
            induction snap with
            | nil => intro s n _; rfl
            | cons q rest ih =>
              intro s n hq
              rw [evictLoop, if_neg (hq q (List.mem_cons_self _ _))]
              exact ih s n (fun r hr => hq r (List.mem_cons_of_mem _ hr))
          exact hgen st.records st 0 (fun q hq => not_lt.mpr (hall q hq))
        rw [hz0, hsize]
        symm
        rw [show (st.records.filter (fun q => decide (cutoff ≤ q.2.ts))) = st.records from
          List.filter_eq_self.mpr (fun q hq => by simpa using hall q hq)]
  · intro hrec
    rw [evictOlderThan, if_pos (by simp [hrec])]

/-- A concrete record for witnesses. -/
def recW (idStr hashStr : String) (ts : Int) : MemoryRecord :=
  { id := str idStr, conv_id := str "c", turn := 0, speaker := .user, ts := ts
    raw_text := str "t", normalized_text := str "t", vector := []
    tags := [], hash := str hashStr, source := str "s", embed_model := str "m"
    embed_dim := 0, user_id := str "u" }

/-- A concrete hot-index state holding one stale and one fresh record. -/
def stW : HotIndexState :=
  { records := [(0, recW "a" "h1" 5), (1, recW "b" "h2" 20)]
    idToLabel := [(str "a", 0), (str "b", 1)]
    hashToLabel := [(str "h1", 0), (str "h2", 1)]
    freeLabels := [], nextLabel := 2, size := 2, initialized := true
    capacity := 128 }

/-- Witness for `C6_eviction_correctness`: evicting at cutoff `10` keeps
exactly the record with timestamp `20`. -/
theorem C6_eviction_correctness_witness :
    (evictOlderThan stW 10).1.size
      = (stW.records.filter (fun q => decide ((10 : Int) ≤ q.2.ts))).length :=
  (C6_eviction_correctness stW 10 (by decide) (by decide)).2.1

/-!
### Label/record invariants over operation sequences (C3)

A reachable state is anything obtainable from a fresh manager by a
sequence of `add_or_update`, `evict_older_than`, `rebuild` and `query`
calls.  `query` never mutates the bookkeeping.
-/

/-- One `HotIndexManager` call. -/
inductive HotOp where
  | add (rs : List MemoryRecord)
  | evict (cutoff : Int)
  | rebuildOp (rs : List MemoryRecord)
  | queryOp

/-- Apply one call to the state (query does not mutate). -/
def applyOp (embedDim : Nat) (st : HotIndexState) : HotOp → HotIndexState
  | .add rs => (addOrUpdate embedDim st rs).1
  | .evict cutoff => (evictOlderThan st cutoff).1
  | .rebuildOp rs => rebuildIndex embedDim st rs
  | .queryOp => st

/-- Run a call sequence from a fresh manager. -/
def execTrace (embedDim : Nat) (ops : List HotOp) : HotIndexState :=
  ops.foldl (applyOp embedDim) emptyHotIndex

/-- The records an operation feeds into the index. -/
def opRecords : HotOp → List MemoryRecord
  | .add rs => rs
  | .rebuildOp rs => rs
  | _ => []

/-- All records fed into the index across a call sequence. -/
def traceRecords (ops : List HotOp) : List MemoryRecord :=
  (ops.map opRecords).flatten

/-- The invariant asserted by the specification (§4.4): each label holds
at most one live record; a live record's `id` and `hash` map to the label
currently holding it; the free list is duplicate-free and holds no live
label (an evicted label is returned to it before any reuse); and `size`
equals the cardinality of the live label-to-record map. -/
def HotIndexClaimedInv (st : HotIndexState) : Prop :=
  (alKeys st.records).Nodup
  ∧ (∀ l r, alFind l st.records = some r →
      alFind r.id st.idToLabel = some l ∧ alFind r.hash st.hashToLabel = some l)
  ∧ st.freeLabels.Nodup
  ∧ (∀ l ∈ st.freeLabels, alFind l st.records = none)
  ∧ st.size = st.records.length

/-- **C3 (counterexample)**: the claimed invariant fails on the code.
Add `(id=a, hash=h1)` and `(id=b, hash=h2)`, then `(id=a, hash=h2)`: the
third record is found by `id` and stored at label 0, and the assignment
`hash_to_label[h2] = 0` silently redirects the hash of the still-live
record at label 1, so that record's hash no longer maps to its label. -/
theorem C3_label_invariants_counterexample :
    ¬ HotIndexClaimedInv (execTrace 0
      [.add [recW "a" "h1" 0], .add [recW "b" "h2" 0], .add [recW "a" "h2" 0]]) := by
  intro h
  have hfind : alFind 1 (execTrace 0
      [.add [recW "a" "h1" 0], .add [recW "b" "h2" 0], .add [recW "a" "h2" 0]]).records
      = some (recW "b" "h2" 0) := by rfl
  have h2 := (h.2.1) 1 (recW "b" "h2" 0) hfind
  exact absurd h2.2 (by decide)

/-- The inductive strengthening of the claimed invariant: additionally,
the `id`/`hash` dictionaries are duplicate-free and *sound* — every entry
points to a live record carrying that id/hash — and all live and free
labels lie below `_next_label`. -/
structure HotIndexInv (st : HotIndexState) : Prop where
  recNodup : (alKeys st.records).Nodup
  idNodup : (alKeys st.idToLabel).Nodup
  hashNodup : (alKeys st.hashToLabel).Nodup
  liveMaps : ∀ l r, alFind l st.records = some r →
      alFind r.id st.idToLabel = some l ∧ alFind r.hash st.hashToLabel = some l
  idSound : ∀ i l, alFind i st.idToLabel = some l →
      ∃ r, alFind l st.records = some r ∧ r.id = i
  hashSound : ∀ h l, alFind h st.hashToLabel = some l →
      ∃ r, alFind l st.records = some r ∧ r.hash = h
  freeNodup : st.freeLabels.Nodup
  freeDead : ∀ l ∈ st.freeLabels, alFind l st.records = none
  liveLt : ∀ l r, alFind l st.records = some r → l < st.nextLabel
  freeLt : ∀ l ∈ st.freeLabels, l < st.nextLabel

/-- Consistent keying across a record population: two records carry the
same `id` exactly when they carry the same `hash` (each logical record
has one fixed `(id, hash)` pair, and distinct records collide on
neither). -/
def ConsistentKeys (R : List MemoryRecord) : Prop :=
  ∀ r ∈ R, ∀ s ∈ R, (r.id = s.id ↔ r.hash = s.hash)

/-- Every live record of the state belongs to the population `R`. -/
def LiveIn (R : List MemoryRecord) (st : HotIndexState) : Prop :=
  ∀ l r, alFind l st.records = some r → r ∈ R

lemma ensureInitialized_fields (st : HotIndexState) (c : Nat) :
    (ensureInitialized st c).records = st.records
    ∧ (ensureInitialized st c).idToLabel = st.idToLabel
    ∧ (ensureInitialized st c).hashToLabel = st.hashToLabel
    ∧ (ensureInitialized st c).freeLabels = st.freeLabels
    ∧ (ensureInitialized st c).nextLabel = st.nextLabel
    ∧ (ensureInitialized st c).size = st.size := by
  unfold ensureInitialized
  split
  · exact ⟨rfl, rfl, rfl, rfl, rfl, rfl⟩
  · split
    · exact ⟨rfl, rfl, rfl, rfl, rfl, rfl⟩
    · exact ⟨rfl, rfl, rfl, rfl, rfl, rfl⟩

lemma HotIndexInv_congr {st st' : HotIndexState}
    (h1 : st'.records = st.records) (h2 : st'.idToLabel = st.idToLabel)
    (h3 : st'.hashToLabel = st.hashToLabel) (h4 : st'.freeLabels = st.freeLabels)
    (h5 : st'.nextLabel = st.nextLabel)
    (hinv : HotIndexInv st) : HotIndexInv st' := by
  constructor
  · rw [h1]; exact hinv.recNodup
  · rw [h2]; exact hinv.idNodup
  · rw [h3]; exact hinv.hashNodup
  · rw [h1, h2, h3]; exact hinv.liveMaps
  · rw [h1, h2]; exact hinv.idSound
  · rw [h1, h3]; exact hinv.hashSound
  · rw [h4]; exact hinv.freeNodup
  · rw [h1, h4]; exact hinv.freeDead
  · rw [h1, h5]; exact hinv.liveLt
  · rw [h4, h5]; exact hinv.freeLt

lemma allocateLabel_spec (st : HotIndexState) (hinv : HotIndexInv st) :
    (allocateLabel st).2.records = st.records
    ∧ (allocateLabel st).2.idToLabel = st.idToLabel
    ∧ (allocateLabel st).2.hashToLabel = st.hashToLabel
    ∧ alFind (allocateLabel st).1 st.records = none
    ∧ (allocateLabel st).2.freeLabels.Nodup
    ∧ (∀ f ∈ (allocateLabel st).2.freeLabels, alFind f st.records = none)
    ∧ (allocateLabel st).1 ∉ (allocateLabel st).2.freeLabels
    ∧ (∀ f ∈ (allocateLabel st).2.freeLabels, f < (allocateLabel st).2.nextLabel)
    ∧ (allocateLabel st).1 < (allocateLabel st).2.nextLabel
    ∧ st.nextLabel ≤ (allocateLabel st).2.nextLabel := by
  cases hfl : st.freeLabels with
  | cons f rest =>
    have hred : allocateLabel st = (f, { st with freeLabels := rest }) := by
      unfold allocateLabel
      rw [hfl]
    have hnd := hinv.freeNodup
    rw [hfl, List.nodup_cons] at hnd
    rw [hred]
    refine ⟨rfl, rfl, rfl, ?_, hnd.2, ?_, hnd.1, ?_, ?_, le_refl _⟩
    · exact hinv.freeDead f (by rw [hfl]; exact List.mem_cons_self _ _)
    · intro g hg
      exact hinv.freeDead g (by rw [hfl]; exact List.mem_cons_of_mem _ hg)
    · intro g hg
      exact hinv.freeLt g (by rw [hfl]; exact List.mem_cons_of_mem _ hg)
    · exact hinv.freeLt f (by rw [hfl]; exact List.mem_cons_self _ _)
  | nil =>
    have hdead : alFind st.nextLabel st.records = none := by
      cases hfind : alFind st.nextLabel st.records with
      | none => rfl
      | some r => exact absurd (hinv.liveLt _ _ hfind) (lt_irrefl _)
    by_cases hcap : st.initialized = true ∧ st.nextLabel + 1 > st.capacity
    · have hred : allocateLabel st = (st.nextLabel,
          { st with nextLabel := st.nextLabel + 1
                    capacity := max (st.nextLabel + 1) (3 * st.capacity / 2) }) := by
        unfold allocateLabel
        rw [hfl]
        simp only [if_pos hcap]
      rw [hred, hfl]
      exact ⟨rfl, rfl, rfl, hdead, by simp, by simp, by simp, by simp,
        Nat.lt_succ_self _, Nat.le_succ _⟩
    · have hred : allocateLabel st = (st.nextLabel,
          { st with nextLabel := st.nextLabel + 1 }) := by
        unfold allocateLabel
        rw [hfl]
        simp only [if_neg hcap]
      rw [hred, hfl]
      exact ⟨rfl, rfl, rfl, hdead, by simp, by simp, by simp, by simp,
        Nat.lt_succ_self _, Nat.le_succ _⟩

lemma applyMaps_recordsEq (st : HotIndexState) (l : Nat) (r : MemoryRecord) :
    (applyMaps st l r).records = alInsert l r st.records := rfl

lemma applyMaps_idEq (st : HotIndexState) (l : Nat) (r : MemoryRecord) :
    (applyMaps st l r).idToLabel = alInsert r.id l st.idToLabel := rfl

lemma applyMaps_hashEq (st : HotIndexState) (l : Nat) (r : MemoryRecord) :
    (applyMaps st l r).hashToLabel = alInsert r.hash l st.hashToLabel := rfl

lemma applyMaps_freeEq (st : HotIndexState) (l : Nat) (r : MemoryRecord) :
    (applyMaps st l r).freeLabels = st.freeLabels := rfl

lemma applyMaps_nextEq (st : HotIndexState) (l : Nat) (r : MemoryRecord) :
    (applyMaps st l r).nextLabel = st.nextLabel := rfl

/-- Updating in place a label whose current record carries the same `id`
and `hash` preserves the invariant. -/
lemma applyMaps_update {st : HotIndexState} {l : Nat} {r s : MemoryRecord}
    (hinv : HotIndexInv st)
    (hs : alFind l st.records = some s)
    (hsid : s.id = r.id) (hshash : s.hash = r.hash) :
    HotIndexInv (applyMaps st l r) := by
  have hmapsS := hinv.liveMaps l s hs
  constructor
  · rw [applyMaps_recordsEq]
    exact alKeys_insert_nodup hinv.recNodup
  · rw [applyMaps_idEq]
    exact alKeys_insert_nodup hinv.idNodup
  · rw [applyMaps_hashEq]
    exact alKeys_insert_nodup hinv.hashNodup
  · intro l' r' hfind'
    rw [applyMaps_recordsEq] at hfind'
    rw [applyMaps_idEq, applyMaps_hashEq]
    by_cases hl : l' = l
    · subst hl
      rw [alFind_insert_self] at hfind'
      cases hfind'
      exact ⟨alFind_insert_self _ _ _, alFind_insert_self _ _ _⟩
    · rw [alFind_insert_ne hl] at hfind'
      have hold := hinv.liveMaps l' r' hfind'
      have hrid : r'.id ≠ r.id := by
        intro he
        have h1 := hold.1
        rw [he, ← hsid] at h1
        have h2 := hmapsS.1.symm.trans h1
        cases h2
        exact hl rfl
      have hrhash : r'.hash ≠ r.hash := by
        intro he
        have h1 := hold.2
        rw [he, ← hshash] at h1
        have h2 := hmapsS.2.symm.trans h1
        cases h2
        exact hl rfl
      rw [alFind_insert_ne hrid, alFind_insert_ne hrhash]
      exact hold
  · intro i l'' hfind''
    rw [applyMaps_idEq] at hfind''
    rw [applyMaps_recordsEq]
    by_cases hi : i = r.id
    · subst hi
      rw [alFind_insert_self] at hfind''
      cases hfind''
      exact ⟨r, alFind_insert_self _ _ _, rfl⟩
    · rw [alFind_insert_ne hi] at hfind''
      obtain ⟨r'', h1, h2⟩ := hinv.idSound i l'' hfind''
      by_cases hl : l'' = l
      · subst hl
        rw [hs] at h1
        cases h1
        exact absurd (h2.symm.trans hsid) hi
      · exact ⟨r'', by rw [alFind_insert_ne hl]; exact h1, h2⟩
  · intro hsh l'' hfind''
    rw [applyMaps_hashEq] at hfind''
    rw [applyMaps_recordsEq]
    by_cases hi : hsh = r.hash
    · subst hi
      rw [alFind_insert_self] at hfind''
      cases hfind''
      exact ⟨r, alFind_insert_self _ _ _, rfl⟩
    · rw [alFind_insert_ne hi] at hfind''
      obtain ⟨r'', h1, h2⟩ := hinv.hashSound hsh l'' hfind''
      by_cases hl : l'' = l
      · subst hl
        rw [hs] at h1
        cases h1
        exact absurd (h2.symm.trans hshash) hi
      · exact ⟨r'', by rw [alFind_insert_ne hl]; exact h1, h2⟩
  · rw [applyMaps_freeEq]
    exact hinv.freeNodup
  · intro f hf
    rw [applyMaps_freeEq] at hf
    rw [applyMaps_recordsEq]
    have hfl : f ≠ l := by
      intro he
      have hd := hinv.freeDead f hf
      rw [he, hs] at hd
      cases hd
    rw [alFind_insert_ne hfl]
    exact hinv.freeDead f hf
  · intro l' r' hfind'
    rw [applyMaps_recordsEq] at hfind'
    rw [applyMaps_nextEq]
    by_cases hl : l' = l
    · subst hl
      exact hinv.liveLt _ s hs
    · rw [alFind_insert_ne hl] at hfind'
      exact hinv.liveLt l' r' hfind'
  · intro f hf
    rw [applyMaps_freeEq] at hf
    rw [applyMaps_nextEq]
    exact hinv.freeLt f hf

/-- Inserting a record at a dead label, when the record's `id` and `hash`
are absent from the dictionaries and the label is not on the free list,
preserves the invariant. -/
lemma applyMaps_fresh {st : HotIndexState} {l : Nat} {r : MemoryRecord}
    (hinv : HotIndexInv st)
    (hdead : alFind l st.records = none)
    (hid : alFind r.id st.idToLabel = none)
    (hhash : alFind r.hash st.hashToLabel = none)
    (hfreeN : l ∉ st.freeLabels)
    (hlt : l < st.nextLabel) :
    HotIndexInv (applyMaps st l r) := by
  constructor
  · rw [applyMaps_recordsEq]
    exact alKeys_insert_nodup hinv.recNodup
  · rw [applyMaps_idEq]
    exact alKeys_insert_nodup hinv.idNodup
  · rw [applyMaps_hashEq]
    exact alKeys_insert_nodup hinv.hashNodup
  · intro l' r' hfind'
    rw [applyMaps_recordsEq] at hfind'
    rw [applyMaps_idEq, applyMaps_hashEq]
    by_cases hl : l' = l
    · subst hl
      rw [alFind_insert_self] at hfind'
      cases hfind'
      exact ⟨alFind_insert_self _ _ _, alFind_insert_self _ _ _⟩
    · rw [alFind_insert_ne hl] at hfind'
      have hold := hinv.liveMaps l' r' hfind'
      have hrid : r'.id ≠ r.id := by
        intro he
        have h1 := hold.1
        rw [he, hid] at h1
        cases h1
      have hrhash : r'.hash ≠ r.hash := by
        intro he
        have h1 := hold.2
        rw [he, hhash] at h1
        cases h1
      rw [alFind_insert_ne hrid, alFind_insert_ne hrhash]
      exact hold
  · intro i l'' hfind''
    rw [applyMaps_idEq] at hfind''
    rw [applyMaps_recordsEq]
    by_cases hi : i = r.id
    · subst hi
      rw [alFind_insert_self] at hfind''
      cases hfind''
      exact ⟨r, alFind_insert_self _ _ _, rfl⟩
    · rw [alFind_insert_ne hi] at hfind''
      obtain ⟨r'', h1, h2⟩ := hinv.idSound i l'' hfind''
      by_cases hl : l'' = l
      · subst hl
        rw [hdead] at h1
        cases h1
      · exact ⟨r'', by rw [alFind_insert_ne hl]; exact h1, h2⟩
  · intro hsh l'' hfind''
    rw [applyMaps_hashEq] at hfind''
    rw [applyMaps_recordsEq]
    by_cases hi : hsh = r.hash
    · subst hi
      rw [alFind_insert_self] at hfind''
      cases hfind''
      exact ⟨r, alFind_insert_self _ _ _, rfl⟩
    · rw [alFind_insert_ne hi] at hfind''
      obtain ⟨r'', h1, h2⟩ := hinv.hashSound hsh l'' hfind''
      by_cases hl : l'' = l
      · subst hl
        rw [hdead] at h1
        cases h1
      · exact ⟨r'', by rw [alFind_insert_ne hl]; exact h1, h2⟩
  · rw [applyMaps_freeEq]
    exact hinv.freeNodup
  · intro f hf
    rw [applyMaps_freeEq] at hf
    rw [applyMaps_recordsEq]
    have hfl : f ≠ l := fun he => hfreeN (he ▸ hf)
    rw [alFind_insert_ne hfl]
    exact hinv.freeDead f hf
  · intro l' r' hfind'
    rw [applyMaps_recordsEq] at hfind'
    rw [applyMaps_nextEq]
    by_cases hl : l' = l
    · subst hl
      exact hlt
    · rw [alFind_insert_ne hl] at hfind'
      exact hinv.liveLt l' r' hfind'
  · intro f hf
    rw [applyMaps_freeEq] at hf
    rw [applyMaps_nextEq]
    exact hinv.freeLt f hf

lemma applyMaps_liveIn {R : List MemoryRecord} {st : HotIndexState} {l : Nat}
    {r : MemoryRecord} (hlive : LiveIn R st) (hr : r ∈ R) :
    LiveIn R (applyMaps st l r) := by
  intro l' r' hfind'
  rw [applyMaps_recordsEq] at hfind'
  by_cases hl : l' = l
  · subst hl
    rw [alFind_insert_self] at hfind'
    cases hfind'
    exact hr
  · rw [alFind_insert_ne hl] at hfind'
    exact hlive l' r' hfind'

lemma addOne_preserves {R : List MemoryRecord} (embedDim : Nat)
    {st : HotIndexState} {r : MemoryRecord}
    (hcons : ConsistentKeys R) (hr : r ∈ R)
    (hinv : HotIndexInv st) (hlive : LiveIn R st) :
    HotIndexInv (addOne embedDim st r).1 ∧ LiveIn R (addOne embedDim st r).1 := by
  unfold addOne
  by_cases hdim : r.vector.length ≠ embedDim
  · rw [if_pos hdim]
    exact ⟨hinv, hlive⟩
  · rw [if_neg hdim]
    cases hfid : alFind r.id st.idToLabel with
    | some l =>
      obtain ⟨s, hsfind, hsid⟩ := hinv.idSound r.id l hfid
      have hsR := hlive l s hsfind
      have hsh : s.hash = r.hash := ((hcons r hr s hsR).mp hsid.symm).symm
      exact ⟨applyMaps_update hinv hsfind hsid hsh, applyMaps_liveIn hlive hr⟩
    | none =>
      cases hfh : alFind r.hash st.hashToLabel with
      | some l =>
        exfalso
        obtain ⟨s, hsfind, hsh⟩ := hinv.hashSound r.hash l hfh
        have hsR := hlive l s hsfind
        have hsid : r.id = s.id := (hcons r hr s hsR).mpr hsh.symm
        have hm := (hinv.liveMaps l s hsfind).1
        rw [← hsid, hfid] at hm
        cases hm
      | none =>
        obtain ⟨hrec, hid2, hhash2, hdead, hfnd, hfdead, hfnotmem, hflt, hllt, hnle⟩ :=
          allocateLabel_spec st hinv
        have hinvA : HotIndexInv (allocateLabel st).2 := by
          constructor
          · rw [hrec]; exact hinv.recNodup
          · rw [hid2]; exact hinv.idNodup
          · rw [hhash2]; exact hinv.hashNodup
          · intro l' r' h
            rw [hrec] at h
            rw [hid2, hhash2]
            exact hinv.liveMaps l' r' h
          · intro i l' h
            rw [hid2] at h
            rw [hrec]
            exact hinv.idSound i l' h
          · intro i l' h
            rw [hhash2] at h
            rw [hrec]
            exact hinv.hashSound i l' h
          · exact hfnd
          · intro f hf
            rw [hrec]
            exact hfdead f hf
          · intro l' r' h
            rw [hrec] at h
            exact lt_of_lt_of_le (hinv.liveLt l' r' h) hnle
          · exact hflt
        have hliveA : LiveIn R (allocateLabel st).2 := by
          intro l' r' h
          rw [hrec] at h
          exact hlive l' r' h
        refine ⟨applyMaps_fresh hinvA ?_ ?_ ?_ hfnotmem hllt, applyMaps_liveIn hliveA hr⟩
        · rw [hrec]; exact hdead
        · rw [hid2]; exact hfid
        · rw [hhash2]; exact hfh

lemma addFold_mono (embedDim : Nat) :
    ∀ (rs : List MemoryRecord) (st : HotIndexState) (n : Nat),
      n ≤ (addFold embedDim rs st n).2 := by
  intro rs
  induction rs with
  | nil => intro st n; exact le_refl n
  | cons r rest ih =>
    intro st n
    rw [addFold]
    exact le_trans (Nat.le_add_right n _) (ih _ _)

lemma addOne_zero (embedDim : Nat) (st : HotIndexState) (r : MemoryRecord) :
    (addOne embedDim st r).2 = 0 → (addOne embedDim st r).1 = st := by
  intro h
  unfold addOne at h ⊢
  by_cases hdim : r.vector.length ≠ embedDim
  · rw [if_pos hdim]
  · rw [if_neg hdim] at h ⊢
    cases hfid : alFind r.id st.idToLabel with
    | some l =>
      rw [hfid] at h
      exact absurd h one_ne_zero
    | none =>
      rw [hfid] at h
      cases hfh : alFind r.hash st.hashToLabel with
      | some l =>
        rw [hfh] at h
        exact absurd h one_ne_zero
      | none =>
        rw [hfh] at h
        exact absurd h one_ne_zero

lemma addFold_preserves (embedDim : Nat) {R : List MemoryRecord}
    (hcons : ConsistentKeys R) :
    ∀ (rs : List MemoryRecord) (st : HotIndexState) (n : Nat),
      (∀ r ∈ rs, r ∈ R) → HotIndexInv st → LiveIn R st →
      HotIndexInv (addFold embedDim rs st n).1 ∧ LiveIn R (addFold embedDim rs st n).1 := by
  intro rs
  induction rs with
  | nil => intro st n _ hinv hlive; exact ⟨hinv, hlive⟩
  | cons r rest ih =>
    intro st n hsub hinv hlive
    rw [addFold]
    have h1 := addOne_preserves embedDim hcons (hsub r (List.mem_cons_self _ _)) hinv hlive
    exact ih _ _ (fun q hq => hsub q (List.mem_cons_of_mem _ hq)) h1.1 h1.2

lemma addFold_zero (embedDim : Nat) :
    ∀ (rs : List MemoryRecord) (st : HotIndexState) (n : Nat),
      (addFold embedDim rs st n).2 = n → (addFold embedDim rs st n).1 = st := by
  intro rs
  induction rs with
  | nil => intro st n _; rfl
  | cons r rest ih =>
    intro st n h
    rw [addFold] at h ⊢
    have hmono := addFold_mono embedDim rest (addOne embedDim st r).1
      (n + (addOne embedDim st r).2)
    have hk : (addOne embedDim st r).2 = 0 := by omega
    have hst := addOne_zero embedDim st r hk
    rw [hk, Nat.add_zero, hst] at h ⊢
    exact ih st n h

lemma addOrUpdate_preserves (embedDim : Nat) {R : List MemoryRecord}
    {st : HotIndexState} {rs : List MemoryRecord}
    (hcons : ConsistentKeys R) (hsub : ∀ r ∈ rs, r ∈ R)
    (hinv : HotIndexInv st) (hlive : LiveIn R st) :
    HotIndexInv (addOrUpdate embedDim st rs).1 ∧ LiveIn R (addOrUpdate embedDim st rs).1 := by
  unfold addOrUpdate
  by_cases hemp : rs.isEmpty
  · rw [if_pos hemp]
    exact ⟨hinv, hlive⟩
  · rw [if_neg hemp]
    obtain ⟨he1, he2, he3, he4, he5, he6⟩ :=
      ensureInitialized_fields st (st.records.length + rs.length + 16)
    have hinv1 : HotIndexInv (ensureInitialized st (st.records.length + rs.length + 16)) :=
      HotIndexInv_congr he1 he2 he3 he4 he5 hinv
    have hlive1 : LiveIn R (ensureInitialized st (st.records.length + rs.length + 16)) := by
      intro l r h
      rw [he1] at h
      exact hlive l r h
    have hfold := addFold_preserves embedDim hcons rs
      (ensureInitialized st (st.records.length + rs.length + 16)) 0 hsub hinv1 hlive1
    by_cases hz : (addFold embedDim rs
        (ensureInitialized st (st.records.length + rs.length + 16)) 0).2 = 0
    · rw [if_pos hz]
      exact hfold
    · rw [if_neg hz]
      constructor
      · refine HotIndexInv_congr ?_ ?_ ?_ ?_ ?_ hfold.1 <;> rfl
      · exact fun l r h => hfold.2 l r h

lemma addOrUpdate_size (embedDim : Nat) {st : HotIndexState} {rs : List MemoryRecord}
    (hsize : st.size = st.records.length) :
    (addOrUpdate embedDim st rs).1.size = (addOrUpdate embedDim st rs).1.records.length := by
  unfold addOrUpdate
  by_cases hemp : rs.isEmpty
  · rw [if_pos hemp]
    exact hsize
  · rw [if_neg hemp]
    obtain ⟨he1, _, _, _, _, he6⟩ :=
      ensureInitialized_fields st (st.records.length + rs.length + 16)
    by_cases hz : (addFold embedDim rs
        (ensureInitialized st (st.records.length + rs.length + 16)) 0).2 = 0
    · rw [if_pos hz]
      have hid := addFold_zero embedDim rs
        (ensureInitialized st (st.records.length + rs.length + 16)) 0 hz
      rw [hid, he6, he1]
      exact hsize
    · rw [if_neg hz]

lemma evictState_recordsEq (st : HotIndexState) (l : Nat) (s : MemoryRecord) :
    (evictState st l s).records = alErase l st.records := rfl

lemma evictState_idEq (st : HotIndexState) (l : Nat) (s : MemoryRecord) :
    (evictState st l s).idToLabel = alErase s.id st.idToLabel := rfl

lemma evictState_hashEq (st : HotIndexState) (l : Nat) (s : MemoryRecord) :
    (evictState st l s).hashToLabel = alErase s.hash st.hashToLabel := rfl

lemma evictState_freeEq (st : HotIndexState) (l : Nat) (s : MemoryRecord) :
    (evictState st l s).freeLabels = l :: st.freeLabels := rfl

lemma evictState_nextEq (st : HotIndexState) (l : Nat) (s : MemoryRecord) :
    (evictState st l s).nextLabel = st.nextLabel := rfl

/-- Evicting a live record preserves the invariant. -/
lemma evictState_preserves {st : HotIndexState} {l : Nat} {s : MemoryRecord}
    (hinv : HotIndexInv st) (hs : alFind l st.records = some s) :
    HotIndexInv (evictState st l s) := by
  have hmapsS := hinv.liveMaps l s hs
  constructor
  · rw [evictState_recordsEq]
    exact alKeys_erase_nodup hinv.recNodup
  · rw [evictState_idEq]
    exact alKeys_erase_nodup hinv.idNodup
  · rw [evictState_hashEq]
    exact alKeys_erase_nodup hinv.hashNodup
  · intro l' r' hfind'
    rw [evictState_recordsEq] at hfind'
    rw [evictState_idEq, evictState_hashEq]
    have hl : l' ≠ l := by
      intro he
      rw [he, alFind_erase_self _ hinv.recNodup] at hfind'
      cases hfind'
    rw [alFind_erase_ne hl] at hfind'
    have hold := hinv.liveMaps l' r' hfind'
    have hrid : r'.id ≠ s.id := by
      intro he
      have h1 := hold.1
      rw [he] at h1
      have h2 := hmapsS.1.symm.trans h1
      cases h2
      exact hl rfl
    have hrhash : r'.hash ≠ s.hash := by
      intro he
      have h1 := hold.2
      rw [he] at h1
      have h2 := hmapsS.2.symm.trans h1
      cases h2
      exact hl rfl
    rw [alFind_erase_ne hrid, alFind_erase_ne hrhash]
    exact hold
  · intro i l'' hfind''
    rw [evictState_idEq] at hfind''
    rw [evictState_recordsEq]
    have hi : i ≠ s.id := by
      intro he
      rw [he, alFind_erase_self _ hinv.idNodup] at hfind''
      cases hfind''
    rw [alFind_erase_ne hi] at hfind''
    obtain ⟨r'', h1, h2⟩ := hinv.idSound i l'' hfind''
    have hl : l'' ≠ l := by
      intro he
      rw [he, hs] at h1
      cases h1
      exact hi h2.symm
    exact ⟨r'', by rw [alFind_erase_ne hl]; exact h1, h2⟩
  · intro i l'' hfind''
    rw [evictState_hashEq] at hfind''
    rw [evictState_recordsEq]
    have hi : i ≠ s.hash := by
      intro he
      rw [he, alFind_erase_self _ hinv.hashNodup] at hfind''
      cases hfind''
    rw [alFind_erase_ne hi] at hfind''
    obtain ⟨r'', h1, h2⟩ := hinv.hashSound i l'' hfind''
    have hl : l'' ≠ l := by
      intro he
      rw [he, hs] at h1
      cases h1
      exact hi h2.symm
    exact ⟨r'', by rw [alFind_erase_ne hl]; exact h1, h2⟩
  · rw [evictState_freeEq, List.nodup_cons]
    refine ⟨?_, hinv.freeNodup⟩
    intro hmem
    have := hinv.freeDead l hmem
    rw [hs] at this
    cases this
  · intro f hf
    rw [evictState_freeEq] at hf
    rw [evictState_recordsEq]
    rcases List.mem_cons.mp hf with rfl | hf'
    · exact alFind_erase_self _ hinv.recNodup
    · have hne : f ≠ l := by
        intro he
        have := hinv.freeDead f hf'
        rw [he, hs] at this
        cases this
      rw [alFind_erase_ne hne]
      exact hinv.freeDead f hf'
  · intro l' r' hfind'
    rw [evictState_recordsEq] at hfind'
    rw [evictState_nextEq]
    have hl : l' ≠ l := by
      intro he
      rw [he, alFind_erase_self _ hinv.recNodup] at hfind'
      cases hfind'
    rw [alFind_erase_ne hl] at hfind'
    exact hinv.liveLt l' r' hfind'
  · intro f hf
    rw [evictState_freeEq] at hf
    rw [evictState_nextEq]
    rcases List.mem_cons.mp hf with rfl | hf'
    · exact hinv.liveLt f s hs
    · exact hinv.freeLt f hf'

lemma evictState_liveIn {R : List MemoryRecord} {st : HotIndexState} {l : Nat}
    {s : MemoryRecord} (hinv : HotIndexInv st) (hlive : LiveIn R st) :
    LiveIn R (evictState st l s) := by
  intro l' r' hfind'
  rw [evictState_recordsEq] at hfind'
  by_cases hl : l' = l
  · rw [hl, alFind_erase_self _ hinv.recNodup] at hfind'
    cases hfind'
  · rw [alFind_erase_ne hl] at hfind'
    exact hlive l' r' hfind'

lemma evictLoop_id (cutoff : Int) :
    ∀ (snap : List (Nat × MemoryRecord)) (st : HotIndexState) (n : Nat),
      (∀ q ∈ snap, ¬ q.2.ts < cutoff) → evictLoop cutoff snap st n = (st, n) := by
  intro snap
  induction snap with
  | nil => intro st n _; rfl
  | cons q rest ih =>
    intro st n hq
    rw [evictLoop, if_neg (hq q (List.mem_cons_self _ _))]
    exact ih st n (fun r hr => hq r (List.mem_cons_of_mem _ hr))

lemma evictLoop_preserves {R : List MemoryRecord} (cutoff : Int) :
    ∀ (snap : List (Nat × MemoryRecord)) (st : HotIndexState) (n : Nat),
      HotIndexInv st → LiveIn R st →
      (alKeys snap).Nodup →
      (∀ p ∈ snap, alFind p.1 st.records = some p.2) →
      HotIndexInv (evictLoop cutoff snap st n).1
        ∧ LiveIn R (evictLoop cutoff snap st n).1 := by
  intro snap
  induction snap with
  | nil => intro st n hinv hlive _ _; exact ⟨hinv, hlive⟩
  | cons p rest ih =>
    intro st n hinv hlive hsnd hfind
    rw [alKeys, List.map_cons, List.nodup_cons] at hsnd
    rw [evictLoop]
    by_cases hts : p.2.ts < cutoff
    · rw [if_pos hts]
      have hps := hfind p (List.mem_cons_self _ _)
      have hinv' := evictState_preserves hinv hps
      have hlive' := evictState_liveIn (l := p.1) (s := p.2) hinv hlive
      refine ih (evictState st p.1 p.2) (n + 1) hinv' hlive' hsnd.2 ?_
      intro q hq
      rw [evictState_recordsEq]
      have hne : q.1 ≠ p.1 := by
        intro he
        exact hsnd.1 (he ▸ List.mem_map_of_mem Prod.fst hq)
      rw [alFind_erase_ne hne]
      exact hfind q (List.mem_cons_of_mem _ hq)
    · rw [if_neg hts]
      exact ih st n hinv hlive hsnd.2 (fun q hq => hfind q (List.mem_cons_of_mem _ hq))

lemma evictOlderThan_preserves {R : List MemoryRecord} {st : HotIndexState} {cutoff : Int}
    (hinv : HotIndexInv st) (hsize : st.size = st.records.length) (hlive : LiveIn R st) :
    HotIndexInv (evictOlderThan st cutoff).1
    ∧ (evictOlderThan st cutoff).1.size = (evictOlderThan st cutoff).1.records.length
    ∧ LiveIn R (evictOlderThan st cutoff).1 := by
  unfold evictOlderThan
  by_cases hemp : st.records.isEmpty
  · rw [if_pos hemp]
    exact ⟨hinv, hsize, hlive⟩
  · have hfind : ∀ p ∈ st.records, alFind p.1 st.records = some p.2 := by
      intro p hp
      exact alFind_of_mem_nodup (by simpa using hp) hinv.recNodup
    have hloop := evictLoop_preserves cutoff st.records st 0 hinv hlive hinv.recNodup hfind
    by_cases hz : (evictLoop cutoff st.records st 0).2 ≠ 0
    · rw [if_neg hemp, if_pos hz]
      refine ⟨?_, rfl, ?_⟩
      · refine HotIndexInv_congr ?_ ?_ ?_ ?_ ?_ hloop.1 <;> rfl
      · exact fun l r h => hloop.2 l r h
    · rw [if_neg hemp, if_neg hz]
      push_neg at hz
      have hcount := evictLoop_count cutoff st.records st 0
      rw [hz] at hcount
      have hall : ∀ q ∈ st.records, ¬ q.2.ts < cutoff := by
        intro q hq hlt
        have hmemf : q ∈ st.records.filter (fun p => decide (p.2.ts < cutoff)) :=
          List.mem_filter.mpr ⟨hq, by simpa using hlt⟩
        have hlen : (st.records.filter (fun p => decide (p.2.ts < cutoff))).length ≠ 0 :=
          (List.length_pos.mpr (List.ne_nil_of_mem hmemf)).ne'
        omega
      rw [evictLoop_id cutoff st.records st 0 hall]
      exact ⟨hinv, hsize, hlive⟩

lemma emptyHotIndex_inv : HotIndexInv emptyHotIndex := by
  constructor
  · exact List.nodup_nil
  · exact List.nodup_nil
  · exact List.nodup_nil
  · intro l r h; cases h
  · intro i l h; cases h
  · intro i l h; cases h
  · exact List.nodup_nil
  · intro l h; cases h
  · intro l r h; cases h
  · intro l h; cases h

lemma clearedIndex_inv (st : HotIndexState) : HotIndexInv (clearedIndex st) := by
  constructor
  · exact List.nodup_nil
  · exact List.nodup_nil
  · exact List.nodup_nil
  · intro l r h; cases h
  · intro i l h; cases h
  · intro i l h; cases h
  · exact List.nodup_nil
  · intro l h; cases h
  · intro l r h; cases h
  · intro l h; cases h

lemma rebuildIndex_preserves (embedDim : Nat) {R : List MemoryRecord}
    {st : HotIndexState} {rs : List MemoryRecord}
    (hcons : ConsistentKeys R) (hsub : ∀ r ∈ rs, r ∈ R) :
    HotIndexInv (rebuildIndex embedDim st rs)
    ∧ (rebuildIndex embedDim st rs).size = (rebuildIndex embedDim st rs).records.length
    ∧ LiveIn R (rebuildIndex embedDim st rs) := by
  unfold rebuildIndex
  by_cases hemp : rs.isEmpty
  · rw [if_pos hemp]
    refine ⟨?_, rfl, ?_⟩
    · refine HotIndexInv_congr ?_ ?_ ?_ ?_ ?_ (clearedIndex_inv st) <;> rfl
    · intro l r h
      cases h
  · rw [if_neg hemp]
    have hcl : LiveIn R (clearedIndex st) := by
      intro l r h
      cases h
    have hadd := addOrUpdate_preserves embedDim hcons hsub (clearedIndex_inv st) hcl
    refine ⟨?_, rfl, ?_⟩
    · refine HotIndexInv_congr ?_ ?_ ?_ ?_ ?_ hadd.1 <;> rfl
    · exact fun l r h => hadd.2 l r h

lemma applyOp_preserves (embedDim : Nat) {R : List MemoryRecord}
    {st : HotIndexState} {op : HotOp}
    (hcons : ConsistentKeys R) (hsub : ∀ r ∈ opRecords op, r ∈ R)
    (hinv : HotIndexInv st) (hsize : st.size = st.records.length) (hlive : LiveIn R st) :
    HotIndexInv (applyOp embedDim st op)
    ∧ (applyOp embedDim st op).size = (applyOp embedDim st op).records.length
    ∧ LiveIn R (applyOp embedDim st op) := by
  cases op with
  | add rs =>
    have h := addOrUpdate_preserves embedDim hcons hsub hinv hlive
    exact ⟨h.1, addOrUpdate_size embedDim hsize, h.2⟩
  | evict cutoff => exact evictOlderThan_preserves hinv hsize hlive
  | rebuildOp rs => exact rebuildIndex_preserves embedDim hcons hsub
  | queryOp => exact ⟨hinv, hsize, hlive⟩

lemma foldTrace_preserves (embedDim : Nat) {R : List MemoryRecord}
    (hcons : ConsistentKeys R) :
    ∀ (ops : List HotOp) (st : HotIndexState),
      (∀ r ∈ traceRecords ops, r ∈ R) →
      HotIndexInv st → st.size = st.records.length → LiveIn R st →
      HotIndexInv (ops.foldl (applyOp embedDim) st)
      ∧ (ops.foldl (applyOp embedDim) st).size
          = (ops.foldl (applyOp embedDim) st).records.length
      ∧ LiveIn R (ops.foldl (applyOp embedDim) st) := by
  intro ops
  induction ops with
  | nil => intro st _ hinv hsize hlive; exact ⟨hinv, hsize, hlive⟩
  | cons op rest ih =>
    intro st hsub hinv hsize hlive
    rw [List.foldl_cons]
    have hsubop : ∀ r ∈ opRecords op, r ∈ R := by
      intro r hr
      apply hsub
      show r ∈ (List.map opRecords (op :: rest)).flatten
      rw [List.map_cons, List.flatten_cons]
      exact List.mem_append_left _ hr
    have hsubrest : ∀ r ∈ traceRecords rest, r ∈ R := by
      intro r hr
      apply hsub
      show r ∈ (List.map opRecords (op :: rest)).flatten
      rw [List.map_cons, List.flatten_cons]
      exact List.mem_append_right _ hr
    have hstep := applyOp_preserves embedDim hcons hsubop hinv hsize hlive
    exact ih (applyOp embedDim st op) hsubrest hstep.1 hstep.2.1 hstep.2.2

instance : DecidablePred ConsistentKeys := fun R =>
  inferInstanceAs (Decidable (∀ r ∈ R, ∀ s ∈ R, (r.id = s.id ↔ r.hash = s.hash)))

/-- **C3 (amended)**: provided the records fed to the index are
consistently keyed — across the whole call sequence, two records carry
the same `id` exactly when they carry the same `hash`, which is what the
counterexample violates — every state reachable by `add_or_update`,
`evict_older_than`, `rebuild` and `query` calls satisfies the claimed
invariant: labels hold at most one live record, every live record's `id`
and `hash` map to its current label, the free list is duplicate-free and
holds no live label, and `size` equals the cardinality of the live
label-to-record map. -/
theorem C3_label_invariants_amended (embedDim : Nat) (ops : List HotOp)
    (hcons : ConsistentKeys (traceRecords ops)) :
    HotIndexClaimedInv (execTrace embedDim ops) := by
  have h := foldTrace_preserves embedDim hcons ops emptyHotIndex
    (fun r hr => hr) emptyHotIndex_inv rfl (fun l r hh => by cases hh)
  exact ⟨h.1.recNodup, h.1.liveMaps, h.1.freeNodup, h.1.freeDead, h.2.1⟩

/-- Witness for `C3_label_invariants_amended` on a concrete consistent
trace: two adds separated by an eviction. -/
theorem C3_label_invariants_amended_witness :
    HotIndexClaimedInv (execTrace 0
      [.add [recW "a" "h1" 0], .evict 5, .add [recW "b" "h2" 20]]) :=
  C3_label_invariants_amended 0
    [.add [recW "a" "h1" 0], .evict 5, .add [recW "b" "h2" 20]] (by decide)

/-! ### Durable store: `PineconeMemoryStore.upsert` (src/app/memory/pinecone_store.py)

The store keeps an in-memory deduplication cache `_existing_hashes` (a dict
keyed by record hash) and forwards each not-yet-seen record to the Pinecone
client; on client success the hash is cached and the per-call counter is
incremented.  We model the cache as the list of its keys, the durable rows
written so far as a list, and the client call
`store_semantic_memory(...) -> bool` as an oracle `storeOk`. -/

structure StoreState where
  existingHashes : List Str
  stored : List MemoryRecord

def emptyStore : StoreState := ⟨[], []⟩

/-- The `for record in records:` loop body of `upsert`, returning the updated
state together with `stored_count` accumulated over the processed suffix. -/
def upsertGo (storeOk : MemoryRecord → Bool) :
    List MemoryRecord → StoreState → StoreState × Nat
  | [], st => (st, 0)
  | r :: rs, st =>
    if r.hash ∈ st.existingHashes then
      upsertGo storeOk rs st
    else if storeOk r then
      ((upsertGo storeOk rs ⟨st.existingHashes ++ [r.hash], st.stored ++ [r]⟩).1,
       (upsertGo storeOk rs ⟨st.existingHashes ++ [r.hash], st.stored ++ [r]⟩).2 + 1)
    else
      upsertGo storeOk rs st

/-- `PineconeMemoryStore.upsert`: early-return 0 on an empty batch, else run
the deduplicating loop. -/
def upsert (storeOk : MemoryRecord → Bool) (st : StoreState)
    (records : List MemoryRecord) : StoreState × Nat :=
  if records.isEmpty then (st, 0) else upsertGo storeOk records st

/-- Store health: no two durable rows share a hash, and every durable row's
hash is in the deduplication cache. -/
def StoreInv (st : StoreState) : Prop :=
  (st.stored.map (fun r => r.hash)).Nodup ∧ ∀ r ∈ st.stored, r.hash ∈ st.existingHashes

lemma upsertGo_stored (storeOk : MemoryRecord → Bool) :
    ∀ (rs : List MemoryRecord) (st : StoreState),
      ∃ d, (upsertGo storeOk rs st).1.stored = st.stored ++ d
        ∧ (upsertGo storeOk rs st).2 = d.length := by
  intro rs
  induction rs with
  | nil => intro st; exact ⟨[], by simp [upsertGo]⟩
  | cons r rest ih =>
    intro st
    rw [upsertGo]
    by_cases h1 : r.hash ∈ st.existingHashes
    · rw [if_pos h1]; exact ih st
    · rw [if_neg h1]
      by_cases h2 : storeOk r
      · rw [if_pos h2]
        obtain ⟨d, hd1, hd2⟩ := ih ⟨st.existingHashes ++ [r.hash], st.stored ++ [r]⟩
        exact ⟨r :: d, by simp at hd1; simp [hd1], by simp [hd2]⟩
      · rw [if_neg h2]; exact ih st

lemma upsertGo_hashes_mono (storeOk : MemoryRecord → Bool) :
    ∀ (rs : List MemoryRecord) (st : StoreState) (h : Str),
      h ∈ st.existingHashes → h ∈ (upsertGo storeOk rs st).1.existingHashes := by
  intro rs
  induction rs with
  | nil => intro st h hh; exact hh
  | cons r rest ih =>
    intro st h hh
    rw [upsertGo]
    by_cases h1 : r.hash ∈ st.existingHashes
    · rw [if_pos h1]; exact ih st h hh
    · rw [if_neg h1]
      by_cases h2 : storeOk r
      · rw [if_pos h2]
        exact ih _ h (List.mem_append_left _ hh)
      · rw [if_neg h2]; exact ih st h hh

lemma upsertGo_inv (storeOk : MemoryRecord → Bool) :
    ∀ (rs : List MemoryRecord) (st : StoreState),
      StoreInv st → StoreInv (upsertGo storeOk rs st).1 := by
  intro rs
  induction rs with
  | nil => intro st hinv; exact hinv
  | cons r rest ih =>
    intro st hinv
    rw [upsertGo]
    by_cases h1 : r.hash ∈ st.existingHashes
    · rw [if_pos h1]; exact ih st hinv
    · rw [if_neg h1]
      by_cases h2 : storeOk r
      · rw [if_pos h2]
        refine ih _ ⟨?_, ?_⟩
        · simp only [List.map_append, List.map_cons, List.map_nil]
          rw [List.nodup_append]
          refine ⟨hinv.1, List.nodup_singleton _, ?_⟩
          intro x hx hx'
          simp only [List.mem_singleton] at hx'
          obtain ⟨s, hs, hsh⟩ := List.mem_map.mp hx
          exact h1 (hx' ▸ hsh ▸ hinv.2 s hs)
        · intro s hs
          rcases List.mem_append.mp hs with hs | hs
          · exact List.mem_append_left _ (hinv.2 s hs)
          · simp only [List.mem_singleton] at hs
            subst hs
            exact List.mem_append_right _ (List.mem_singleton_self _)
      · rw [if_neg h2]; exact ih st hinv

lemma upsertGo_skip_all (storeOk : MemoryRecord → Bool) :
    ∀ (rs : List MemoryRecord) (st : StoreState),
      (∀ r ∈ rs, r.hash ∈ st.existingHashes) → upsertGo storeOk rs st = (st, 0) := by
  intro rs
  induction rs with
  | nil => intro st _; rfl
  | cons r rest ih =>
    intro st hall
    rw [upsertGo, if_pos (hall r (List.mem_cons_self _ _))]
    exact ih st (fun s hs => hall s (List.mem_cons_of_mem _ hs))

lemma upsertGo_covers :
    ∀ (rs : List MemoryRecord) (st : StoreState) (r : MemoryRecord),
      r ∈ rs →
      r.hash ∈ (upsertGo (fun w => true) rs st).1.existingHashes := by
  intro rs
  induction rs with
  | nil => intro st r hr; cases hr
  | cons s rest ih =>
    intro st r hr
    rw [upsertGo]
    by_cases h1 : s.hash ∈ st.existingHashes
    · rw [if_pos h1]
      rcases List.mem_cons.mp hr with rfl | hr
      · exact upsertGo_hashes_mono _ rest st _ h1
      · exact ih st r hr
    · rw [if_neg h1, if_pos rfl]
      rcases List.mem_cons.mp hr with rfl | hr
      · exact upsertGo_hashes_mono _ rest _ _
          (List.mem_append_right _ (List.mem_singleton_self _))
      · exact ih _ r hr

/-- **C5**: the durable store's `upsert` returns the count of newly-written
rows and is idempotent on hash.  (a) the rows after the call are the rows
before it plus a batch of new rows whose length is the returned count;
(b) a record whose hash is already cached is silently skipped — the call
behaves exactly as if the record were absent, so it is neither duplicated
nor an error (the model is a total function); (c) across any sequence of
calls the store never holds two rows with the same hash; (d) replaying the
same batch after a call on which every client write succeeded stores
nothing and returns 0. -/
theorem C5_upsert_idempotent_on_hash (storeOk okNext : MemoryRecord → Bool)
    (st : StoreState) (records : List MemoryRecord) (r : MemoryRecord)
    (hmem : r.hash ∈ st.existingHashes) (hinv : StoreInv st) :
    (∃ d, (upsert storeOk st records).1.stored = st.stored ++ d
        ∧ (upsert storeOk st records).2 = d.length)
    ∧ upsert storeOk st (r :: records) = upsert storeOk st records
    ∧ StoreInv (upsert storeOk st records).1
    ∧ upsert okNext ((upsert (fun w => true) st records).1) records
        = ((upsert (fun w => true) st records).1, 0) := by
  refine ⟨?_, ?_, ?_, ?_⟩
  · unfold upsert
    by_cases he : records.isEmpty
    · rw [if_pos he]
      exact ⟨[], by simp, rfl⟩
    · rw [if_neg he]
      exact upsertGo_stored storeOk records st
  · unfold upsert
    rw [if_neg (by simp), upsertGo, if_pos hmem]
    by_cases he : records.isEmpty
    · rw [if_pos he]
      rw [List.isEmpty_iff] at he
      subst he
      rfl
    · rw [if_neg he]
  · unfold upsert
    by_cases he : records.isEmpty
    · rw [if_pos he]; exact hinv
    · rw [if_neg he]
      exact upsertGo_inv storeOk records st hinv
  · by_cases he : records.isEmpty
    · rw [List.isEmpty_iff] at he
      subst he
      rfl
    · have hcov : ∀ s ∈ records,
          s.hash ∈ ((upsert (fun w => true) st records).1).existingHashes := by
        intro s hs
        unfold upsert
        rw [if_neg he]
        exact upsertGo_covers records st s hs
      unfold upsert
      rw [if_neg he]
      exact upsertGo_skip_all okNext records _ hcov

/-- Witness for `C5_upsert_idempotent_on_hash` on a concrete store whose
cache already holds the hash of the skipped record. -/
theorem C5_upsert_idempotent_on_hash_witness :
    (recW "x" "h1" 5).hash ∈ (StoreState.mk [str "h1"] [recW "a" "h1" 5]).existingHashes
    ∧ StoreInv (StoreState.mk [str "h1"] [recW "a" "h1" 5])
    ∧ upsert (fun w => true) (StoreState.mk [str "h1"] [recW "a" "h1" 5])
        (recW "x" "h1" 5 :: [recW "b" "h2" 20])
      = upsert (fun w => true) (StoreState.mk [str "h1"] [recW "a" "h1" 5])
        [recW "b" "h2" 20] :=
  ⟨by decide, ⟨by decide, by decide⟩,
    (C5_upsert_idempotent_on_hash (fun w => true) (fun w => true)
      (StoreState.mk [str "h1"] [recW "a" "h1" 5]) [recW "b" "h2" 20]
      (recW "x" "h1" 5) (by decide) ⟨by decide, by decide⟩).2.1⟩

/-!
## The ingestion pipeline (`app/callbacks.py`)

`CallbackProcessor.process` and its helpers.  External capabilities —
`json.loads`, `hashlib.sha1`, `uuid5`, the HMAC, ISO-8601/float timestamp
parsing, `str()` on container values, `sorted(set(...))` over conversation
ids, the embedding service and the Pinecone client — are parameters,
gathered in a per-processor `BaseCtx` and a per-call `CallCtx` (the wall
clock and the two per-call service oracles).  JSON numbers are modelled as
integers.  Exceptions raised by `process` are the `PErr` type; the DLQ is
the list of `(body, reason)` entries written, where the reason is the
Python f-string `"<stage>:" + str(exc)` and `str(exc)` is the capability
`excMsg`.
-/

/-- Exceptions escaping `CallbackProcessor.process` (spec taxonomy §6):
signature failures, `json.JSONDecodeError` (`MalformedPayload`), the
`ValueError("unsupported payload shape")`, other `ValueError`s
(`MemoryRecord.__post_init__`), `TypeError`s from non-string conversation
ids, embedding-service failures and the embedding count-mismatch
`RuntimeError`. -/
inductive PErr where
  | verification (e : VerifyErr)
  | malformedPayload
  | unsupportedPayload
  | valueErr
  | typeErr
  | embeddingFailure
  | embeddingMismatch
  deriving DecidableEq, Repr

/-- Python `isinstance(exc, ValueError)`, deciding between the outer
`except ValueError` (`payload:`) and `except Exception` (`pipeline:`)
handlers of `process`. -/
def isValueError : PErr → Bool
  | .unsupportedPayload => true
  | .valueErr => true
  | _ => false

/-- The processor's stable context: settings and external capabilities
fixed at construction time. -/
structure BaseCtx where
  verifySig : Bool
  secret : Str
  mac : Str → Str → Str
  parseJson : Str → Option Json
  cfg : ChunkerCfg
  parseIso : Str → Option Int
  parseFloat : Str → Option Int
  strComplex : Json → Str
  sortConvIds : List Json → List Json
  sha1 : Str → Str
  uuid5 : Str → Str
  embedModel : Str
  embedDim : Nat
  excMsg : PErr → Str

/-- The per-call context: the wall clock and the two network services. -/
structure CallCtx where
  now : Int
  embedVec : Chunk → Option (List Rat)
  storeOk : MemoryRecord → Bool

/-- `d.get(k)` on a parsed-JSON dict: `json.loads` turns JSON `null` into
Python `None`, so both an absent key and a null value read back as
`None`. -/
def pyGetF (k : Str) (fields : List (Str × Json)) : Option Json :=
  match alFind k fields with
  | some .null => none
  | v => v

/-- Python truthiness of a parsed-JSON value. -/
def jTruthy : Json → Bool
  | .null => false
  | .bool b => b
  | .num n => n != 0
  | .str s => !s.isEmpty
  | .arr xs => !xs.isEmpty
  | .obj fs => !fs.isEmpty

def optTruthy : Option Json → Bool
  | none => false
  | some v => jTruthy v

/-- The skip test of `_first_non_empty`: `value is None`, or a string that
strips to empty. -/
def blankOpt : Option Json → Bool
  | none => true
  | some (.str s) => (pyStrip s).isEmpty
  | some _ => false

/-- `_first_non_empty(*values)`. -/
def firstNonEmpty : List (Option Json) → Option Json
  | [] => none
  | v :: rest => if blankOpt v then firstNonEmpty rest else v

/-- Python `str(value)` on a parsed-JSON value; `repr`-based rendering of
containers is the capability `strComplex`. -/
def pyStr (strComplex : Json → Str) : Json → Str
  | .str s => s
  | .num n => intStr n
  | .bool true => str "True"
  | .bool false => str "False"
  | .null => str "None"
  | .arr xs => strComplex (.arr xs)
  | .obj fs => strComplex (.obj fs)

/-- `_coerce_int(value, default=0)`: `int()` succeeds on ints, bools and
integral strings; `TypeError`/`ValueError` fall back to the default. -/
def coerceInt : Option Json → Int
  | none => 0
  | some (.num n) => n
  | some (.bool b) => if b then 1 else 0
  | some (.str s) => (pyInt s).getD 0
  | some _ => 0

/-- `value.replace("Z", "+00:00")`. -/
def replaceZ (s : Str) : Str :=
  s.flatMap fun c => if c = 'Z' then str "+00:00" else [c]

/-- `_parse_timestamp(value)`: `None` → now; int/float (bool included) →
epoch instant; strings via `fromisoformat` then `float`, else now;
anything else → now. -/
def parseTimestamp (parseIso parseFloat : Str → Option Int) (now : Int) :
    Option Json → Int
  | none => now
  | some (.num n) => n
  | some (.bool b) => if b then 1 else 0
  | some (.str s) =>
    match parseIso (replaceZ s) with
    | some t => t
    | none =>
      match parseFloat (replaceZ s) with
      | some t => t
      | none => now
  | some _ => now

/-- `IngestMessage`.  `conversation_id` is stored exactly as extracted (the
source does not `str()`-coerce it); `timestamp` is a UTC epoch instant. -/
structure IngestMessage where
  conversation_id : Json
  turn : Int
  speaker : Str
  text : Str
  timestamp : Int
  tags : List Json
  source : Str
  user_id : Option Str

/-- The `conversation_id` line of `_parse_message` (also of the
`base_conv` computation in `_extract_messages`):
`_first_non_empty(data.get("conversation_id"),
data.get("conversation", {}).get("id") if isinstance(..., dict) else None)`. -/
def convIdOf (fields : List (Str × Json)) : Option Json :=
  firstNonEmpty [pyGetF (str "conversation_id") fields,
    match pyGetF (str "conversation") fields with
    | some (.obj cf) => pyGetF (str "id") cf
    | _ => none]

def textOf (fields : List (Str × Json)) : Option Json :=
  firstNonEmpty [pyGetF (str "text") fields, pyGetF (str "message") fields,
    pyGetF (str "content") fields]

def turnOf (fields : List (Str × Json)) : Option Json :=
  firstNonEmpty [pyGetF (str "turn") fields, pyGetF (str "sequence") fields,
    pyGetF (str "position") fields]

def speakerOf (fields : List (Str × Json)) : Option Json :=
  firstNonEmpty [pyGetF (str "speaker") fields, pyGetF (str "role") fields,
    some (.str (str "unknown"))]

def tsFieldOf (fields : List (Str × Json)) : Option Json :=
  firstNonEmpty [pyGetF (str "timestamp") fields, pyGetF (str "ts") fields,
    pyGetF (str "time") fields]

/-- `data.get("tags") if isinstance(data.get("tags"), list) else []`. -/
def tagsOf (fields : List (Str × Json)) : List Json :=
  match pyGetF (str "tags") fields with
  | some (.arr xs) => xs
  | _ => []

def sourceOf (fields : List (Str × Json)) : Option Json :=
  firstNonEmpty [pyGetF (str "source") fields,
    some (.str (str "ingest-webhook"))]

/-- `user_id = _first_non_empty(...)`; `str(user_id) if user_id else None`. -/
def userIdOf (strComplex : Json → Str) (fields : List (Str × Json)) : Option Str :=
  match firstNonEmpty [pyGetF (str "user_id") fields, pyGetF (str "user") fields,
    pyGetF (str "userId") fields] with
  | some v => if jTruthy v then some (pyStr strComplex v) else none
  | none => none

/-- `_parse_message(data)`: non-dicts are skipped; a falsy conversation id
or falsy text skips the message; remaining fields are extracted
line-by-line as in the source. -/
def parseMessage (B : BaseCtx) (now : Int) (data : Json) : Option IngestMessage :=
  match data with
  | .obj fields =>
    if optTruthy (convIdOf fields) then
      if optTruthy (textOf fields) then
        some { conversation_id := (convIdOf fields).getD .null
               turn := coerceInt (turnOf fields)
               speaker := pyStr B.strComplex ((speakerOf fields).getD .null)
               text := pyStr B.strComplex ((textOf fields).getD .null)
               timestamp := parseTimestamp B.parseIso B.parseFloat now (tsFieldOf fields)
               tags := tagsOf fields
               source := pyStr B.strComplex ((sourceOf fields).getD .null)
               user_id := userIdOf B.strComplex fields }
      else none
    else none
  | _ => none

/-- `_inject_conversation_id(message, conv_id)`: dict messages lacking the
key get the truthy base conversation id appended. -/
def injectConversationId (msg : Json) (conv : Option Json) : Json :=
  match msg with
  | .obj fields =>
    if optTruthy conv && (alFind (str "conversation_id") fields).isNone then
      .obj (fields ++ [(str "conversation_id", (conv.getD .null))])
    else .obj fields
  | m => m

/-- Python iteration over the `payload.get("messages", [])` value: lists
yield elements, strings their characters, dicts their keys; `None`, bools
and numbers raise `TypeError`. -/
def iterJson : Json → Except PErr (List Json)
  | .arr xs => .ok xs
  | .str s => .ok (s.map fun c => Json.str [c])
  | .obj fields => .ok (fields.map fun p => Json.str p.1)
  | _ => .error .typeErr

/-- The `raw_messages` computation of `_extract_messages`: a list payload
is taken as-is; a dict with a `"messages"` key has the base conversation
id injected into each element; any other dict is a single message; other
shapes raise `ValueError("unsupported payload shape")`. -/
def rawMessages (payload : Json) : Except PErr (List Json) :=
  match payload with
  | .arr xs => .ok xs
  | .obj fields =>
    if (alFind (str "messages") fields).isSome then
      match iterJson ((pyGetF (str "messages") fields).getD .null) with
      | .ok raw => .ok (raw.map fun m => injectConversationId m (convIdOf fields))
      | .error e => .error e
    else .ok [.obj fields]
  | _ => .error .unsupportedPayload

/-- `_extract_messages(payload)`. -/
def extractMessages (B : BaseCtx) (now : Int) (payload : Json) :
    Except PErr (List IngestMessage) :=
  match rawMessages payload with
  | .ok raw => .ok (raw.filterMap (parseMessage B now))
  | .error e => .error e

/-- `_resolve_speaker(speaker)`. -/
def resolveSpeaker (speaker : Str) : MemorySpeaker :=
  if speaker.map Char.toLower = str "user" then .user
  else if speaker.map Char.toLower = str "assistant" then .assistant
  else if speaker.map Char.toLower = str "system" then .system
  else if speaker.map Char.toLower = str "other" then .other
  else if speaker.map Char.toLower = str "agent"
      ∨ speaker.map Char.toLower = str "bot" then .assistant
  else if speaker.map Char.toLower = str "customer" then .user
  else .other

/-- `EmbeddingResult` (`app/services/cohere_client.py`): the embedding
payload paired with its original chunk. -/
structure EmbeddingResult where
  chunk : Chunk
  embedding : List Rat
  model : Str
  dimension : Nat
  deriving DecidableEq, Repr

/-- `CohereEmbeddingClient.embed_chunks`: chunks with empty normalized
text are dropped; each remaining chunk is embedded by the service oracle
(batching only groups the calls and does not change the result order);
a service failure aborts the call. -/
def embedChunksGo (model : Str) (dim : Nat) (embedVec : Chunk → Option (List Rat)) :
    List Chunk → Except PErr (List EmbeddingResult)
  | [] => .ok []
  | c :: rest =>
    if c.normalizedText.isEmpty then embedChunksGo model dim embedVec rest
    else
      match embedVec c with
      | none => .error .embeddingFailure
      | some v =>
        match embedChunksGo model dim embedVec rest with
        | .ok rs => .ok (⟨c, v, model, dim⟩ :: rs)
        | .error e => .error e

/-- `CallbackProcessor._embed_chunks`: embed the chunks of the pairs and
raise `RuntimeError("Embedding result count mismatch")` when the result
count differs from the chunk count. -/
def embedChunksChecked (B : BaseCtx) (C : CallCtx)
    (pairs : List (IngestMessage × Chunk)) : Except PErr (List EmbeddingResult) :=
  match embedChunksGo B.embedModel B.embedDim C.embedVec (pairs.map Prod.snd) with
  | .error e => .error e
  | .ok results =>
    if results.length ≠ pairs.length then .error .embeddingMismatch else .ok results

/-- The `_build_record` digest input
`f"{conversation_id}:{turn}:{token_start}:{chunk.hash}"`. -/
def hashInput (conv : Str) (turn : Int) (c : Chunk) : Str :=
  conv ++ ':' :: intStr turn ++ ':' :: intStr (c.tokenStart : Int) ++ ':' :: c.hash

/-- The `_build_record` user-id line, with Python's conditional-expression
precedence: `(user_id or split[0]) if '_' in conv else conv`. -/
def recordUserId (message : IngestMessage) (conv : Str) : Str :=
  if '_' ∈ conv then
    match message.user_id with
    | some u => if u.isEmpty then (pySplit '_' conv).headD [] else u
    | none => (pySplit '_' conv).headD []
  else conv

/-- `CallbackProcessor._build_record`: records are keyed by
`sha1(conversation_id:turn:token_start:chunk_hash)` with a `uuid5` id of
that digest.  A non-string conversation id makes `'_' in conversation_id`
raise `TypeError` (container-typed conversation ids cannot inhabit the
record schema and are likewise outside the model); an empty digest or
empty model name trips `MemoryRecord.__post_init__`'s `ValueError`. -/
def buildRecord (B : BaseCtx) (message : IngestMessage) (e : EmbeddingResult) :
    Except PErr MemoryRecord :=
  match message.conversation_id with
  | .str conv =>
    if B.sha1 (hashInput conv message.turn e.chunk) = [] ∨ e.model = [] then
      .error .valueErr
    else
      .ok { id := B.uuid5 (B.sha1 (hashInput conv message.turn e.chunk))
            conv_id := conv
            turn := message.turn
            speaker := resolveSpeaker message.speaker
            ts := message.timestamp
            raw_text := e.chunk.rawText
            normalized_text := e.chunk.normalizedText
            vector := e.embedding
            tags := message.tags
            hash := B.sha1 (hashInput conv message.turn e.chunk)
            source := message.source
            embed_model := e.model
            embed_dim := e.dimension
            user_id := recordUserId message conv }
  | _ => .error .typeErr

/-- The record-building loop `for (message, _), embedding in
zip(chunk_pairs, embedding_results)`. -/
def buildRecords (B : BaseCtx) :
    List (IngestMessage × Chunk) → List EmbeddingResult →
    Except PErr (List MemoryRecord)
  | (m, _) :: ps, e :: es =>
    match buildRecord B m e with
    | .error err => .error err
    | .ok r =>
      match buildRecords B ps es with
      | .ok rs => .ok (r :: rs)
      | .error err => .error err
  | _, _ => .ok []

/-- The chunk-pair loop: every message paired with each of its text's
chunks, in order. -/
def chunkPairs (B : BaseCtx) (messages : List IngestMessage) :
    List (IngestMessage × Chunk) :=
  messages.flatMap fun m => (chunkText B.cfg m.text).map fun c => (m, c)

/-- `CallbackResult`. -/
structure CallbackResult where
  conversation_ids : List Json
  ingested_chunks : Nat
  stored_records : Nat
  evicted : Nat

/-- The mutable state `process` can touch: the durable store, the DLQ
directory (a list of `(body, reason)` entries), and the process-wide hot
index. -/
structure PipeState where
  store : StoreState
  dlq : List (Str × Str)
  hot : HotIndexState

/-- `DeadLetterQueue.write(body, reason)`. -/
def dlqWrite (st : PipeState) (body reason : Str) : PipeState :=
  { st with dlq := st.dlq ++ [(body, reason)] }

/-- The outer exception handlers of `process`: `except ValueError` writes
`payload:`, `except Exception` writes `pipeline:`. -/
def outerReason (B : BaseCtx) (e : PErr) : Str :=
  if isValueError e then str "payload:" ++ B.excMsg e
  else str "pipeline:" ++ B.excMsg e

/-- The body of the big `try` of `process` (everything after JSON
parsing).  An embedding failure is DLQ'd twice, faithfully to the nested
handlers: the inner `except` writes `embedding:` and re-raises into the
outer handler.  The store's `upsert` never raises (the Pinecone client
catches its own exceptions and returns `False`), so the `pinecone:`
handler is unreachable.  The second component of an `ok` result is the
record batch handed to the store — a ghost observable for the
specification.  Lines 141–143 of the source replace the hot-index sync
with `added = upserted; evicted = 0`, so `st.hot` is never read or
written. -/
def processPayload (B : BaseCtx) (C : CallCtx) (st : PipeState) (body : Str)
    (payload : Json) : Except PErr (CallbackResult × List MemoryRecord) × PipeState :=
  match extractMessages B C.now payload with
  | .error e => (.error e, dlqWrite st body (outerReason B e))
  | .ok messages =>
    if messages.isEmpty then (.ok (⟨[], 0, 0, 0⟩, []), st)
    else if (chunkPairs B messages).isEmpty then
      (.ok (⟨B.sortConvIds (messages.map fun m => m.conversation_id), 0, 0, 0⟩, []), st)
    else
      match embedChunksChecked B C (chunkPairs B messages) with
      | .error e =>
        (.error e,
         dlqWrite (dlqWrite st body (str "embedding:" ++ B.excMsg e)) body
           (outerReason B e))
      | .ok results =>
        match buildRecords B (chunkPairs B messages) results with
        | .error e => (.error e, dlqWrite st body (outerReason B e))
        | .ok records =>
          (.ok (⟨B.sortConvIds (messages.map fun m => m.conversation_id),
                 (chunkPairs B messages).length,
                 (upsert C.storeOk st.store records).2, 0⟩, records),
           { st with store := (upsert C.storeOk st.store records).1 })

/-- `process` after the signature stage: `json.loads`, then the pipeline;
a decode failure is DLQ'd as `json:` and re-raised (`MalformedPayload`). -/
def processBody (B : BaseCtx) (C : CallCtx) (st : PipeState) (body : Str) :
    Except PErr (CallbackResult × List MemoryRecord) × PipeState :=
  match B.parseJson body with
  | none =>
    (.error .malformedPayload,
     dlqWrite st body (str "json:" ++ B.excMsg .malformedPayload))
  | some payload => processPayload B C st body payload

/-- `CallbackProcessor.process(body, signature_header)`. -/
def process (B : BaseCtx) (C : CallCtx) (st : PipeState) (body sigHeader : Str) :
    Except PErr (CallbackResult × List MemoryRecord) × PipeState :=
  if B.verifySig then
    match verifyWebhookSignature B.mac C.now sigHeader body B.secret 300 with
    | .error e =>
      (.error (.verification e),
       dlqWrite st body (str "signature:" ++ B.excMsg (.verification e)))
    | .ok _ => processBody B C st body
  else processBody B C st body

def exceptOk {α : Type} : Except PErr α → Bool
  | .ok _ => true
  | .error _ => false

/-- The record batch of a successful call (empty on the early returns). -/
def okRecords : Except PErr (CallbackResult × List MemoryRecord) → List MemoryRecord
  | .ok p => p.2
  | .error _ => []

/-- The reported `stored_records` of a successful call. -/
def okStored : Except PErr (CallbackResult × List MemoryRecord) → Nat
  | .ok p => p.1.stored_records
  | .error _ => 0

lemma processPayload_hot (B : BaseCtx) (C : CallCtx) (st : PipeState)
    (body : Str) (payload : Json) :
    (processPayload B C st body payload).2.hot = st.hot := by
  unfold processPayload
  split
  · rfl
  · split
    · rfl
    · split
      · rfl
      · split
        · rfl
        · split
          · rfl
          · rfl

lemma processBody_hot (B : BaseCtx) (C : CallCtx) (st : PipeState) (body : Str) :
    (processBody B C st body).2.hot = st.hot := by
  unfold processBody
  split
  · rfl
  · exact processPayload_hot _ _ _ _ _

lemma process_hot (B : BaseCtx) (C : CallCtx) (st : PipeState) (body sig : Str) :
    (process B C st body sig).2.hot = st.hot := by
  unfold process
  split
  · split
    · rfl
    · exact processBody_hot _ _ _ _
  · exact processBody_hot _ _ _ _

/-- A chunker whose capabilities round-trip ASCII text. -/
def pipeCfgW : ChunkerCfg where
  normalize := id
  encode := fun s => s.map Char.toNat
  decode := fun ts => ts.map Char.ofNat
  sha1 := id
  maxTokens := 8
  overlap := 0
  minTokens := 1
  overlap_lt := by decide

/-- A single-message ingest payload. -/
def payloadW : Json :=
  .obj [(str "conversation_id", .str (str "c")), (str "text", .str (str "hi")),
        (str "timestamp", .num 5)]

/-- A concrete processor context decoding the body `BODY` to `payloadW`,
with identity digests and signature verification disabled. -/
def baseW : BaseCtx where
  verifySig := false
  secret := []
  mac := fun _ m => m
  parseJson := fun s => if s = str "BODY" then some payloadW else none
  cfg := pipeCfgW
  parseIso := fun _ => none
  parseFloat := fun _ => none
  strComplex := fun _ => []
  sortConvIds := fun l => l
  sha1 := fun s => s
  uuid5 := fun s => s
  embedModel := str "m"
  embedDim := 2
  excMsg := fun _ => str "e"

/-- A concrete call context whose embedding service and durable store both
succeed. -/
def callW : CallCtx where
  now := 0
  embedVec := fun _ => some [1, 0]
  storeOk := fun _ => true

/-- An initial pipeline state: empty store, empty DLQ, empty hot index. -/
def pipeW : PipeState := ⟨emptyStore, [], emptyHotIndex⟩

/-- **C1**: contrary to the spec's stage 8, `process` performs no hot-index
sync at all.  First conjunct: for every context, state and call, the hot
index after `process` is exactly the hot index before — the code (lines
141–143 of `app/callbacks.py`) sets `added = upserted; evicted = 0` and
never touches an index.  Remaining conjuncts: a concrete call succeeds
with a durable upsert of one record (`stored_records = 1`, one stored
row), yet the hot index is still empty afterwards and every query on it
returns nothing, so the just-persisted record was not added or updated in
the hot index. -/
theorem C1_hot_index_sync_dropped :
    (∀ (B : BaseCtx) (C : CallCtx) (st : PipeState) (body sig : Str),
      (process B C st body sig).2.hot = st.hot)
    ∧ exceptOk ((process baseW callW pipeW (str "BODY") []).1) = true
    ∧ okStored ((process baseW callW pipeW (str "BODY") []).1) = 1
    ∧ (process baseW callW pipeW (str "BODY") []).2.store.stored.length = 1
    ∧ (process baseW callW pipeW (str "BODY") []).2.hot.records = []
    ∧ (∀ (knn : Nat → List (Nat × Rat)) (topk : Nat),
        hotQuery (process baseW callW pipeW (str "BODY") []).2.hot knn topk = []) := by
  refine ⟨process_hot, rfl, rfl, rfl, ?_, ?_⟩
  · rw [process_hot]
    rfl
  · intro knn topk
    rw [process_hot]
    rfl

lemma processBody_malformed {B : BaseCtx} (C : CallCtx) (st : PipeState)
    {body : Str} (hjson : B.parseJson body = none) :
    processBody B C st body
      = (.error .malformedPayload,
         dlqWrite st body (str "json:" ++ B.excMsg .malformedPayload)) := by
  unfold processBody
  rw [hjson]

/-- **C8**: with a body that is not valid JSON, a call that passes (or
skips) signature verification writes exactly one DLQ entry, whose reason
string starts with `json:`, and fails with `MalformedPayload`; moreover —
whatever the verification outcome — the durable store and the hot index
are left completely unchanged, and a call failing signature verification
(on any body) likewise fails without touching the store or the hot
index. -/
theorem C8_malformed_json_dlq_and_no_mutation (B : BaseCtx) (C : CallCtx)
    (st : PipeState) (body sig : Str) (hjson : B.parseJson body = none) :
    ((B.verifySig = false
        ∨ verifyWebhookSignature B.mac C.now sig body B.secret 300 = .ok ()) →
      (process B C st body sig).1 = .error .malformedPayload
      ∧ (process B C st body sig).2.dlq
          = st.dlq ++ [(body, str "json:" ++ B.excMsg .malformedPayload)]
      ∧ List.IsPrefix (str "json:") (str "json:" ++ B.excMsg .malformedPayload))
    ∧ (process B C st body sig).2.store = st.store
    ∧ (process B C st body sig).2.hot = st.hot
    ∧ (∀ (b s : Str) (e : VerifyErr), B.verifySig = true →
        verifyWebhookSignature B.mac C.now s b B.secret 300 = .error e →
        (process B C st b s).1 = .error (.verification e)
        ∧ (process B C st b s).2.store = st.store
        ∧ (process B C st b s).2.hot = st.hot) := by
  refine ⟨?_, ?_, ?_, ?_⟩
  · intro hv
    rcases hv with hv | hv
    · rw [process, if_neg (by simp [hv]), processBody_malformed C st hjson]
      exact ⟨rfl, rfl, ⟨_, rfl⟩⟩
    · unfold process
      by_cases hflag : B.verifySig
      · rw [if_pos hflag, hv, processBody_malformed C st hjson]
        exact ⟨rfl, rfl, ⟨_, rfl⟩⟩
      · rw [if_neg hflag, processBody_malformed C st hjson]
        exact ⟨rfl, rfl, ⟨_, rfl⟩⟩
  · unfold process
    split
    · split
      · rfl
      · rw [processBody_malformed C st hjson]
        rfl
    · rw [processBody_malformed C st hjson]
      rfl
  · exact process_hot B C st body sig
  · intro b s e hflag hv
    rw [process, if_pos hflag, hv]
    exact ⟨rfl, rfl, rfl⟩

/-- The concrete processor context of `baseW` with a JSON decoder that
rejects every body. -/
def base8 : BaseCtx := { baseW with parseJson := fun _ => none }

/-- Witness for `C8_malformed_json_dlq_and_no_mutation` on a concrete
undecodable body. -/
theorem C8_malformed_json_dlq_and_no_mutation_witness :
    base8.parseJson (str "BODY") = none
    ∧ (process base8 callW pipeW (str "BODY") []).1 = .error .malformedPayload
    ∧ (process base8 callW pipeW (str "BODY") []).2.dlq
        = pipeW.dlq ++ [(str "BODY", str "json:" ++ base8.excMsg .malformedPayload)]
    ∧ (process base8 callW pipeW (str "BODY") []).2.store = pipeW.store
    ∧ (process base8 callW pipeW (str "BODY") []).2.hot = pipeW.hot :=
  ⟨rfl,
   ((C8_malformed_json_dlq_and_no_mutation base8 callW pipeW (str "BODY") []
      rfl).1 (Or.inl rfl)).1,
   ((C8_malformed_json_dlq_and_no_mutation base8 callW pipeW (str "BODY") []
      rfl).1 (Or.inl rfl)).2.1,
   (C8_malformed_json_dlq_and_no_mutation base8 callW pipeW (str "BODY") []
      rfl).2.1,
   (C8_malformed_json_dlq_and_no_mutation base8 callW pipeW (str "BODY") []
      rfl).2.2.1⟩

/-!
### Replay idempotency (C2)

Two calls on the same body differ only in the wall clock and the per-call
service oracles.  The relations below track what replaying preserves:
messages agree on everything except the parsed timestamp, chunk pairs on
the chunks, embedding results on their chunks — and record hashes, being
`sha1(conv:turn:token_start:chunk_hash)`, agree exactly.
-/

/-- Two parses of the same raw message agree on every field except the
(clock-dependent) timestamp. -/
def SameCore (m₁ m₂ : IngestMessage) : Prop :=
  m₁.conversation_id = m₂.conversation_id ∧ m₁.turn = m₂.turn
  ∧ m₁.speaker = m₂.speaker ∧ m₁.text = m₂.text ∧ m₁.tags = m₂.tags
  ∧ m₁.source = m₂.source ∧ m₁.user_id = m₂.user_id

def PairRel (p q : IngestMessage × Chunk) : Prop :=
  SameCore p.1 q.1 ∧ p.2 = q.2

def ERel (e₁ e₂ : EmbeddingResult) : Prop :=
  e₁.chunk = e₂.chunk ∧ e₁.model = e₂.model ∧ e₁.dimension = e₂.dimension

lemma parseMessage_some (B : BaseCtx) {fields : List (Str × Json)}
    (hc1 : optTruthy (convIdOf fields) = true)
    (hc2 : optTruthy (textOf fields) = true) (now : Int) :
    parseMessage B now (.obj fields)
      = some { conversation_id := (convIdOf fields).getD .null
               turn := coerceInt (turnOf fields)
               speaker := pyStr B.strComplex ((speakerOf fields).getD .null)
               text := pyStr B.strComplex ((textOf fields).getD .null)
               timestamp := parseTimestamp B.parseIso B.parseFloat now (tsFieldOf fields)
               tags := tagsOf fields
               source := pyStr B.strComplex ((sourceOf fields).getD .null)
               user_id := userIdOf B.strComplex fields } := by
  unfold parseMessage
  dsimp only
  rw [if_pos hc1, if_pos hc2]

lemma parseMessage_rel (B : BaseCtx) (n₁ n₂ : Int) (d : Json) :
    (parseMessage B n₁ d = none ∧ parseMessage B n₂ d = none)
    ∨ ∃ m₁ m₂, parseMessage B n₁ d = some m₁ ∧ parseMessage B n₂ d = some m₂
        ∧ SameCore m₁ m₂ := by
  cases d with
  | obj fields =>
    by_cases hc1 : optTruthy (convIdOf fields) = true
    · by_cases hc2 : optTruthy (textOf fields) = true
      · right
        exact ⟨_, _, parseMessage_some B hc1 hc2 n₁, parseMessage_some B hc1 hc2 n₂,
          rfl, rfl, rfl, rfl, rfl, rfl, rfl⟩
      · left
        constructor <;> simp [parseMessage, hc1, hc2]
    · left
      constructor <;> simp [parseMessage, hc1]
  | null => left; exact ⟨rfl, rfl⟩
  | bool b => left; exact ⟨rfl, rfl⟩
  | num n => left; exact ⟨rfl, rfl⟩
  | str s => left; exact ⟨rfl, rfl⟩
  | arr xs => left; exact ⟨rfl, rfl⟩

lemma filterMap_rel {α β : Type} {R : β → β → Prop} {f g : α → Option β} :
    ∀ (l : List α),
      (∀ a ∈ l, (f a = none ∧ g a = none)
        ∨ ∃ b c, f a = some b ∧ g a = some c ∧ R b c) →
      List.Forall₂ R (l.filterMap f) (l.filterMap g) := by
  intro l
  induction l with
  | nil => intro _; exact .nil
  | cons a t ih =>
    intro h
    rcases h a (List.mem_cons_self _ _) with ⟨hf, hg⟩ | ⟨b, c, hf, hg, hr⟩
    · simp only [List.filterMap_cons, hf, hg]
      exact ih fun x hx => h x (List.mem_cons_of_mem _ hx)
    · simp only [List.filterMap_cons, hf, hg]
      exact .cons hr (ih fun x hx => h x (List.mem_cons_of_mem _ hx))

lemma extractMessages_rel (B : BaseCtx) (n₁ n₂ : Int) (payload : Json) :
    (∃ e, extractMessages B n₁ payload = .error e
        ∧ extractMessages B n₂ payload = .error e)
    ∨ ∃ ms₁ ms₂, extractMessages B n₁ payload = .ok ms₁
        ∧ extractMessages B n₂ payload = .ok ms₂
        ∧ List.Forall₂ SameCore ms₁ ms₂ := by
  unfold extractMessages
  cases hr : rawMessages payload with
  | error e => left; exact ⟨e, rfl, rfl⟩
  | ok raw =>
    right
    exact ⟨_, _, rfl, rfl, filterMap_rel raw fun d _ => parseMessage_rel B n₁ n₂ d⟩

lemma forall₂_append {α : Type} {R : α → α → Prop} :
    ∀ {l₁ l₂ u₁ u₂ : List α}, List.Forall₂ R l₁ l₂ → List.Forall₂ R u₁ u₂ →
      List.Forall₂ R (l₁ ++ u₁) (l₂ ++ u₂) := by
  intro l₁ l₂ u₁ u₂ h hu
  induction h with
  | nil => exact hu
  | cons hx _ ih => exact .cons hx ih

lemma map_pair_rel {m₁ m₂ : IngestMessage} (hm : SameCore m₁ m₂) :
    ∀ (cs : List Chunk),
      List.Forall₂ PairRel (cs.map fun c => (m₁, c)) (cs.map fun c => (m₂, c)) := by
  intro cs
  induction cs with
  | nil => exact .nil
  | cons c t ih => exact .cons ⟨hm, rfl⟩ ih

lemma chunkPairs_rel (B : BaseCtx) {ms₁ ms₂ : List IngestMessage}
    (h : List.Forall₂ SameCore ms₁ ms₂) :
    List.Forall₂ PairRel (chunkPairs B ms₁) (chunkPairs B ms₂) := by
  induction h with
  | nil => exact .nil
  | @cons m₁ m₂ t₁ t₂ hm _ ih =>
    have hsplit₁ : chunkPairs B (m₁ :: t₁)
        = ((chunkText B.cfg m₁.text).map fun c => (m₁, c)) ++ chunkPairs B t₁ := by
      simp [chunkPairs]
    have hsplit₂ : chunkPairs B (m₂ :: t₂)
        = ((chunkText B.cfg m₂.text).map fun c => (m₂, c)) ++ chunkPairs B t₂ := by
      simp [chunkPairs]
    rw [hsplit₁, hsplit₂, hm.2.2.2.1]
    exact forall₂_append (map_pair_rel hm _) ih

lemma pairRel_snd {ps₁ ps₂ : List (IngestMessage × Chunk)}
    (h : List.Forall₂ PairRel ps₁ ps₂) : ps₁.map Prod.snd = ps₂.map Prod.snd := by
  induction h with
  | nil => rfl
  | cons hp _ ih => simp only [List.map_cons, ih, hp.2]

lemma embedChunksGo_rel (model : Str) (dim : Nat)
    (v₁ v₂ : Chunk → Option (List Rat)) :
    ∀ (cs : List Chunk) (rs₁ rs₂ : List EmbeddingResult),
      embedChunksGo model dim v₁ cs = .ok rs₁ →
      embedChunksGo model dim v₂ cs = .ok rs₂ →
      List.Forall₂ ERel rs₁ rs₂ := by
  intro cs
  induction cs with
  | nil =>
    intro rs₁ rs₂ h₁ h₂
    cases h₁
    cases h₂
    exact .nil
  | cons c t ih =>
    intro rs₁ rs₂ h₁ h₂
    rw [embedChunksGo] at h₁ h₂
    by_cases hn : c.normalizedText.isEmpty = true
    · rw [if_pos hn] at h₁ h₂
      exact ih rs₁ rs₂ h₁ h₂
    · rw [if_neg hn] at h₁ h₂
      cases hv₁ : v₁ c with
      | none => rw [hv₁] at h₁; cases h₁
      | some vec₁ =>
        rw [hv₁] at h₁
        cases hv₂ : v₂ c with
        | none => rw [hv₂] at h₂; cases h₂
        | some vec₂ =>
          rw [hv₂] at h₂
          cases hr₁ : embedChunksGo model dim v₁ t with
          | error e => rw [hr₁] at h₁; cases h₁
          | ok rrest₁ =>
            rw [hr₁] at h₁
            cases hr₂ : embedChunksGo model dim v₂ t with
            | error e => rw [hr₂] at h₂; cases h₂
            | ok rrest₂ =>
              rw [hr₂] at h₂
              cases h₁
              cases h₂
              exact .cons ⟨rfl, rfl, rfl⟩ (ih _ _ hr₁ hr₂)

lemma embedChunksChecked_ok {B : BaseCtx} {C : CallCtx}
    {pairs : List (IngestMessage × Chunk)} {rs : List EmbeddingResult}
    (h : embedChunksChecked B C pairs = .ok rs) :
    embedChunksGo B.embedModel B.embedDim C.embedVec (pairs.map Prod.snd) = .ok rs := by
  unfold embedChunksChecked at h
  split at h
  · cases h
  · rename_i results heq
    split at h
    · cases h
    · cases h
      exact heq

lemma buildRecord_ok_inv {B : BaseCtx} {m : IngestMessage} {e : EmbeddingResult}
    {r : MemoryRecord} (h : buildRecord B m e = .ok r) :
    ∃ conv, m.conversation_id = .str conv
      ∧ r.hash = B.sha1 (hashInput conv m.turn e.chunk) := by
  unfold buildRecord at h
  split at h
  · rename_i conv heq
    split at h
    · cases h
    · cases h
      exact ⟨conv, heq, rfl⟩
  · cases h

lemma buildRecord_hash_rel (B : BaseCtx) {m₁ m₂ : IngestMessage}
    {e₁ e₂ : EmbeddingResult} {r₁ r₂ : MemoryRecord} (hm : SameCore m₁ m₂)
    (he : ERel e₁ e₂) (h₁ : buildRecord B m₁ e₁ = .ok r₁)
    (h₂ : buildRecord B m₂ e₂ = .ok r₂) : r₁.hash = r₂.hash := by
  obtain ⟨conv₁, hc₁, hh₁⟩ := buildRecord_ok_inv h₁
  obtain ⟨conv₂, hc₂, hh₂⟩ := buildRecord_ok_inv h₂
  have hcc : conv₁ = conv₂ := by
    have h := hm.1
    rw [hc₁, hc₂] at h
    exact Json.str.inj h
  rw [hh₁, hh₂, hcc, hm.2.1, he.1]

lemma buildRecords_hashes (B : BaseCtx) :
    ∀ {ps₁ ps₂ : List (IngestMessage × Chunk)},
      List.Forall₂ PairRel ps₁ ps₂ →
      ∀ {rs₁ rs₂ : List EmbeddingResult}, List.Forall₂ ERel rs₁ rs₂ →
      ∀ {recs₁ recs₂ : List MemoryRecord},
        buildRecords B ps₁ rs₁ = .ok recs₁ →
        buildRecords B ps₂ rs₂ = .ok recs₂ →
        recs₁.map (fun r => r.hash) = recs₂.map (fun r => r.hash) := by
  intro ps₁ ps₂ hps
  induction hps with
  | nil =>
    intro rs₁ rs₂ _ recs₁ recs₂ h₁ h₂
    cases h₁
    cases h₂
    rfl
  | @cons p q t₁ t₂ hpq _ ih =>
    intro rs₁ rs₂ hrs recs₁ recs₂ h₁ h₂
    cases hrs with
    | nil =>
      obtain ⟨m₁, c₁⟩ := p
      obtain ⟨m₂, c₂⟩ := q
      cases h₁
      cases h₂
      rfl
    | @cons e₁ e₂ es₁ es₂ he hes =>
      obtain ⟨m₁, c₁⟩ := p
      obtain ⟨m₂, c₂⟩ := q
      rw [buildRecords] at h₁ h₂
      cases hb₁ : buildRecord B m₁ e₁ with
      | error err => rw [hb₁] at h₁; cases h₁
      | ok r₁ =>
        rw [hb₁] at h₁
        cases hb₂ : buildRecord B m₂ e₂ with
        | error err => rw [hb₂] at h₂; cases h₂
        | ok r₂ =>
          rw [hb₂] at h₂
          cases ht₁ : buildRecords B t₁ es₁ with
          | error err => rw [ht₁] at h₁; cases h₁
          | ok rest₁ =>
            rw [ht₁] at h₁
            cases ht₂ : buildRecords B t₂ es₂ with
            | error err => rw [ht₂] at h₂; cases h₂
            | ok rest₂ =>
              rw [ht₂] at h₂
              cases h₁
              cases h₂
              simp only [List.map_cons]
              rw [buildRecord_hash_rel B hpq.1 he hb₁ hb₂, ih hes ht₁ ht₂]

lemma upsert_count_zero {storeOk : MemoryRecord → Bool} {st : StoreState}
    {recs : List MemoryRecord} (h : ∀ r ∈ recs, r.hash ∈ st.existingHashes) :
    (upsert storeOk st recs).2 = 0 := by
  unfold upsert
  by_cases he : recs.isEmpty = true
  · rw [if_pos he]
  · rw [if_neg he, upsertGo_skip_all storeOk recs st h]

lemma upsert_covers {st : StoreState} {recs : List MemoryRecord} {h : Str}
    (hmem : h ∈ recs.map fun r => r.hash) :
    h ∈ (upsert (fun w => true) st recs).1.existingHashes := by
  obtain ⟨r, hr, rfl⟩ := List.mem_map.mp hmem
  have hne : ¬ recs.isEmpty = true := by
    simp only [List.isEmpty_iff]
    exact List.ne_nil_of_mem hr
  unfold upsert
  rw [if_neg hne]
  exact upsertGo_covers recs st r hr

lemma processPayload_ok_shape (B : BaseCtx) (C : CallCtx) (st : PipeState)
    (body : Str) (payload : Json)
    (hok : exceptOk (processPayload B C st body payload).1 = true) :
    ∃ ms, extractMessages B C.now payload = .ok ms
      ∧ ((ms.isEmpty = true
            ∧ processPayload B C st body payload = (.ok (⟨[], 0, 0, 0⟩, []), st))
        ∨ (ms.isEmpty = false ∧ (chunkPairs B ms).isEmpty = true
            ∧ processPayload B C st body payload
                = (.ok (⟨B.sortConvIds (ms.map fun m => m.conversation_id),
                         0, 0, 0⟩, []), st))
        ∨ (ms.isEmpty = false ∧ (chunkPairs B ms).isEmpty = false
            ∧ ∃ results recs,
                embedChunksChecked B C (chunkPairs B ms) = .ok results
                ∧ buildRecords B (chunkPairs B ms) results = .ok recs
                ∧ processPayload B C st body payload
                    = (.ok (⟨B.sortConvIds (ms.map fun m => m.conversation_id),
                             (chunkPairs B ms).length,
                             (upsert C.storeOk st.store recs).2, 0⟩, recs),
                       { st with store := (upsert C.storeOk st.store recs).1 }))) := by
  cases hex : extractMessages B C.now payload with
  | error e =>
    exfalso
    unfold processPayload at hok
    rw [hex] at hok
    simp [exceptOk] at hok
  | ok ms =>
    refine ⟨ms, rfl, ?_⟩
    by_cases hemp : ms.isEmpty = true
    · left
      refine ⟨hemp, ?_⟩
      unfold processPayload
      rw [hex]
      dsimp only
      rw [if_pos hemp]
    · by_cases hcp : (chunkPairs B ms).isEmpty = true
      · right; left
        refine ⟨by simpa using hemp, hcp, ?_⟩
        unfold processPayload
        rw [hex]
        dsimp only
        rw [if_neg hemp, if_pos hcp]
      · right; right
        refine ⟨by simpa using hemp, by simpa using hcp, ?_⟩
        cases hec : embedChunksChecked B C (chunkPairs B ms) with
        | error e =>
          exfalso
          unfold processPayload at hok
          rw [hex] at hok
          dsimp only at hok
          rw [if_neg hemp, if_neg hcp, hec] at hok
          simp [exceptOk] at hok
        | ok results =>
          cases hbr : buildRecords B (chunkPairs B ms) results with
          | error e =>
            exfalso
            unfold processPayload at hok
            rw [hex] at hok
            dsimp only at hok
            rw [if_neg hemp, if_neg hcp, hec] at hok
            dsimp only at hok
            rw [hbr] at hok
            simp [exceptOk] at hok
          | ok recs =>
            refine ⟨results, recs, rfl, hbr, ?_⟩
            unfold processPayload
            rw [hex]
            dsimp only
            rw [if_neg hemp, if_neg hcp, hec]
            dsimp only
            rw [hbr]

lemma length_isEmpty_eq {α β : Type} (l₁ : List α) (l₂ : List β)
    (h : l₁.length = l₂.length) : l₁.isEmpty = l₂.isEmpty := by
  cases l₁ <;> cases l₂ <;> simp_all

lemma processPayload_replay (B : BaseCtx) (C₁ C₂ : CallCtx) (st : PipeState)
    (body : Str) (payload : Json)
    (hstore : C₁.storeOk = fun r => true)
    (hok₁ : exceptOk (processPayload B C₁ st body payload).1 = true)
    (hok₂ : exceptOk (processPayload B C₂ (processPayload B C₁ st body payload).2
        body payload).1 = true) :
    (okRecords (processPayload B C₂ (processPayload B C₁ st body payload).2
        body payload).1).map (fun r => r.hash)
      = (okRecords (processPayload B C₁ st body payload).1).map (fun r => r.hash)
    ∧ okStored (processPayload B C₂ (processPayload B C₁ st body payload).2
        body payload).1 = 0 := by
  obtain ⟨ms₁, hex₁, hshape₁⟩ := processPayload_ok_shape B C₁ st body payload hok₁
  obtain ⟨ms₂, hex₂, hshape₂⟩ := processPayload_ok_shape B C₂ _ body payload hok₂
  have hrel : List.Forall₂ SameCore ms₁ ms₂ := by
    rcases extractMessages_rel B C₁.now C₂.now payload with ⟨e, he₁, _⟩ | ⟨a, b, ha, hb, hab⟩
    · rw [he₁] at hex₁
      cases hex₁
    · rw [ha] at hex₁
      rw [hb] at hex₂
      cases hex₁
      cases hex₂
      exact hab
  have hpair := chunkPairs_rel B hrel
  have hempiff : ms₁.isEmpty = ms₂.isEmpty :=
    length_isEmpty_eq ms₁ ms₂ hrel.length_eq
  have hcpiff : (chunkPairs B ms₁).isEmpty = (chunkPairs B ms₂).isEmpty :=
    length_isEmpty_eq _ _ hpair.length_eq
  rcases hshape₁ with ⟨hemp₁, heq₁⟩ | ⟨hemp₁, hcp₁, heq₁⟩
    | ⟨hemp₁, hcp₁, results₁, recs₁, hec₁, hbr₁, heq₁⟩
  · rcases hshape₂ with ⟨hemp₂, heq₂⟩ | ⟨hemp₂, _, heq₂⟩ | ⟨hemp₂, _, _, _, _, _, heq₂⟩
    · rw [heq₂, heq₁]
      exact ⟨rfl, rfl⟩
    · rw [hemp₁] at hempiff
      rw [hemp₂] at hempiff
      cases hempiff
    · rw [hemp₁] at hempiff
      rw [hemp₂] at hempiff
      cases hempiff
  · rcases hshape₂ with ⟨hemp₂, heq₂⟩ | ⟨hemp₂, hcp₂, heq₂⟩
      | ⟨hemp₂, hcp₂, _, _, _, _, heq₂⟩
    · rw [hemp₁] at hempiff
      rw [hemp₂] at hempiff
      cases hempiff
    · rw [heq₂, heq₁]
      exact ⟨rfl, rfl⟩
    · rw [hcp₁] at hcpiff
      rw [hcp₂] at hcpiff
      cases hcpiff
  · rcases hshape₂ with ⟨hemp₂, heq₂⟩ | ⟨hemp₂, hcp₂, heq₂⟩
      | ⟨hemp₂, hcp₂, results₂, recs₂, hec₂, hbr₂, heq₂⟩
    · rw [hemp₁] at hempiff
      rw [hemp₂] at hempiff
      cases hempiff
    · rw [hcp₁] at hcpiff
      rw [hcp₂] at hcpiff
      cases hcpiff
    · have hsnd := pairRel_snd hpair
      have hgo₁ := embedChunksChecked_ok hec₁
      have hgo₂ := embedChunksChecked_ok hec₂
      rw [← hsnd] at hgo₂
      have hErel := embedChunksGo_rel B.embedModel B.embedDim C₁.embedVec C₂.embedVec
        ((chunkPairs B ms₁).map Prod.snd) results₁ results₂ hgo₁ hgo₂
      have hhash := buildRecords_hashes B hpair hErel hbr₁ hbr₂
      constructor
      · rw [heq₂, heq₁]
        simp only [okRecords]
        exact hhash.symm
      · rw [heq₂, heq₁]
        simp only [okStored]
        apply upsert_count_zero
        intro r hr
        have hmem : r.hash ∈ recs₁.map fun s => s.hash := by
          rw [hhash]
          exact List.mem_map_of_mem _ hr
        simp only [hstore]
        exact upsert_covers hmem

lemma process_ok_reduce {B : BaseCtx} {C : CallCtx} {st : PipeState}
    {body sig : Str} (hok : exceptOk (process B C st body sig).1 = true) :
    process B C st body sig = processBody B C st body := by
  unfold process at hok ⊢
  by_cases hv : B.verifySig = true
  · rw [if_pos hv] at hok ⊢
    cases hvr : verifyWebhookSignature B.mac C.now sig body B.secret 300 with
    | error e =>
      rw [hvr] at hok
      simp [exceptOk] at hok
    | ok u => rfl
  · rw [if_neg hv]

lemma processBody_ok_payload {B : BaseCtx} {C : CallCtx} {st : PipeState}
    {body : Str} (hok : exceptOk (processBody B C st body).1 = true) :
    ∃ payload, B.parseJson body = some payload
      ∧ processBody B C st body = processPayload B C st body payload := by
  unfold processBody at hok ⊢
  cases hp : B.parseJson body with
  | none =>
    rw [hp] at hok
    simp [exceptOk] at hok
  | some payload => exact ⟨payload, rfl, rfl⟩

/-- **C2**: replaying the same body is idempotent.  For every processor
context, initial state and body, if a first call succeeds with a durable
store whose client accepts every write, then any succeeding second call
on the same body — under a possibly different wall clock, signature
header, and embedding/store oracles — hands the store a record batch with
exactly the same hash list (each hash being the digest of
`(conversation_id, turn, chunk.token_start, chunk.hash)`), and its
reported durable-store upsert count `stored_records` is `0`. -/
theorem C2_replay_idempotent (B : BaseCtx) (C₁ C₂ : CallCtx) (st : PipeState)
    (body sig₁ sig₂ : Str)
    (hstore : C₁.storeOk = fun r => true)
    (hok₁ : exceptOk (process B C₁ st body sig₁).1 = true)
    (hok₂ : exceptOk (process B C₂ (process B C₁ st body sig₁).2 body sig₂).1
      = true) :
    (okRecords (process B C₂ (process B C₁ st body sig₁).2 body sig₂).1).map
        (fun r => r.hash)
      = (okRecords (process B C₁ st body sig₁).1).map (fun r => r.hash)
    ∧ okStored (process B C₂ (process B C₁ st body sig₁).2 body sig₂).1 = 0 := by
  have h1 := process_ok_reduce hok₁
  rw [h1] at hok₁ hok₂ ⊢
  have h2 := process_ok_reduce hok₂
  rw [h2] at hok₂ ⊢
  obtain ⟨payload, hp, hb₁⟩ := processBody_ok_payload hok₁
  rw [hb₁] at hok₁ hok₂ ⊢
  obtain ⟨payload₂, hp₂, hb₂⟩ := processBody_ok_payload hok₂
  rw [hp] at hp₂
  cases hp₂
  rw [hb₂] at hok₂ ⊢
  exact processPayload_replay B C₁ C₂ st body payload hstore hok₁ hok₂

/-- Witness for `C2_replay_idempotent`: replaying the concrete `BODY`
call of the C1 run yields the same single record hash and a second-call
upsert count of `0`. -/
theorem C2_replay_idempotent_witness :
    CallCtx.storeOk callW = (fun r => true)
    ∧ exceptOk (process baseW callW pipeW (str "BODY") []).1 = true
    ∧ exceptOk (process baseW callW (process baseW callW pipeW (str "BODY") []).2
        (str "BODY") []).1 = true
    ∧ (okRecords (process baseW callW (process baseW callW pipeW (str "BODY") []).2
          (str "BODY") []).1).map (fun r => r.hash)
        = (okRecords (process baseW callW pipeW (str "BODY") []).1).map
            (fun r => r.hash)
    ∧ okStored (process baseW callW (process baseW callW pipeW (str "BODY") []).2
        (str "BODY") []).1 = 0 :=
  ⟨rfl, rfl, rfl,
   (C2_replay_idempotent baseW callW callW pipeW (str "BODY") [] [] rfl rfl rfl).1,
   (C2_replay_idempotent baseW callW callW pipeW (str "BODY") [] [] rfl rfl rfl).2⟩
